import Mathlib

/-!
Verification development for the PubMed co-author network engine
(`src/pubmed_network/network_builder.py`, `src/pubmed_network/visualizer.py`).

The Python code is shallowly embedded: the `networkx.Graph` used by the
repository is modelled as a list of attributed nodes plus a list of
weighted undirected edges, and the library routines the code calls
(`degree_centrality`, `betweenness_centrality`, `closeness_centrality`,
`clustering`, `density`, `connected_components`, `average_clustering`)
are modelled by their documented mathematical semantics, which is what the
networkx implementations compute on these inputs.  Machine `float`
arithmetic is modelled over `ℚ`; Python's `round(x, 4)` is modelled by
round-half-to-even at 4 decimal digits.
-/

namespace PubmedNetwork


/-- An author record as consumed by `_author_key` / `build_coauthor_network`:
`last_name`, `first_name`, `affiliation` (all strings, possibly empty). -/
structure Author where
  last_name : String
  first_name : String
  affiliation : String
deriving Repr, DecidableEq

/-- An article record as consumed by `build_coauthor_network`; only the
`authors` field is read by the network builder. -/
structure Article where
  authors : List Author
deriving Repr, DecidableEq

/-- Split a character list at characters satisfying `p`, keeping empty
segments (structural counterpart of `String.split`, which the kernel cannot
reduce). -/
def splitChars (p : Char → Bool) : List Char → List Char → List String
  | cur, [] => [String.mk cur.reverse]
  | cur, c :: rest =>
    if p c then String.mk cur.reverse :: splitChars p [] rest
    else splitChars p (c :: cur) rest

/-- Embedding of `_author_key`: canonical author name key `"Last FM"`.
Python `first.split()` splits on whitespace runs and drops empty pieces
(splitting with empty segments kept, then filtering, as the source's
`if part` does); `part[0]` takes the first character of each piece. -/
def author_key (a : Author) : String :=
  if a.first_name ≠ "" then
    let parts := (splitChars Char.isWhitespace [] a.first_name.data).filter
      (fun p => p ≠ "")
    let initials := String.join (parts.map (fun p => String.mk (p.data.take 1)))
    a.last_name ++ " " ++ initials
  else
    a.last_name

/-- Node payload of the co-author graph: the key together with the two
node attributes the builder maintains (`paper_count`, `affiliation`). -/
structure NodeData where
  key : String
  paper_count : Nat
  affiliation : String
deriving Repr, DecidableEq

/-- Shallow embedding of the `networkx.Graph` value used by the repository:
nodes in insertion order with their attribute bag, and undirected weighted
edges `(u, v, weight)` in insertion order.  Edge lookup is orientation
insensitive, matching `networkx`. -/
structure Graph where
  nodes : List NodeData
  edges : List (String × String × Nat)
deriving Repr, DecidableEq

/-- The empty graph (`nx.Graph()`). -/
def Graph.emptyG : Graph := ⟨[], []⟩

/-- The list of node keys, in insertion order (`list(G.nodes)`). -/
def Graph.nodeKeys (G : Graph) : List String := G.nodes.map (fun nd => nd.key)

/-- Membership test `G.has_node(key)`. -/
def Graph.hasNode (G : Graph) (k : String) : Bool := G.nodeKeys.contains k

/-- Node record lookup (first node with the given key; keys are unique for
graphs built by `build_coauthor_network`, mirroring the `networkx` node dict). -/
def Graph.getNode (G : Graph) (k : String) : Option NodeData :=
  G.nodes.find? (fun nd => nd.key == k)

/-- `G.nodes[k].get("paper_count", 0)`: stored paper count, 0 if absent. -/
def Graph.getPaperCount (G : Graph) (k : String) : Nat :=
  ((G.getNode k).map (fun nd => nd.paper_count)).getD 0

/-- `G.nodes[k].get("affiliation", "")`: stored affiliation, `""` if absent. -/
def Graph.getAffiliation (G : Graph) (k : String) : String :=
  ((G.getNode k).map (fun nd => nd.affiliation)).getD ""

/-- `G.add_node(key, paper_count=pc, affiliation=aff)` for a fresh key. -/
def Graph.addNode (G : Graph) (k : String) (pc : Nat) (aff : String) : Graph :=
  { G with nodes := G.nodes ++ [⟨k, pc, aff⟩] }

/-- `G.nodes[key]["paper_count"] += 1` (updates every node with that key;
keys are unique by construction). -/
def Graph.incPaperCount (G : Graph) (k : String) : Graph :=
  { G with nodes := G.nodes.map (fun nd =>
      if nd.key == k then { nd with paper_count := nd.paper_count + 1 } else nd) }

/-- `G.nodes[key]["affiliation"] = aff`. -/
def Graph.setAffiliation (G : Graph) (k : String) (aff : String) : Graph :=
  { G with nodes := G.nodes.map (fun nd =>
      if nd.key == k then { nd with affiliation := aff } else nd) }

/-- Orientation-insensitive match of a stored edge against the unordered
pair `{a, b}`. -/
def edgeMatch (a b : String) (e : String × String × Nat) : Bool :=
  (e.1 == a && e.2.1 == b) || (e.1 == b && e.2.1 == a)

/-- `G.has_edge(a, b)`. -/
def Graph.hasEdge (G : Graph) (a b : String) : Bool :=
  G.edges.any (edgeMatch a b)

/-- `G[a][b]["weight"] += 1`. -/
def Graph.incEdgeWeight (G : Graph) (a b : String) : Graph :=
  { G with edges := G.edges.map (fun e =>
      if edgeMatch a b e then (e.1, e.2.1, e.2.2 + 1) else e) }

/-- `G.add_edge(a, b, weight=w)` for a fresh pair. -/
def Graph.addEdge (G : Graph) (a b : String) (w : Nat) : Graph :=
  { G with edges := G.edges ++ [(a, b, w)] }

/-- Stored weight of the edge `{a, b}`, 0 if the edge is absent. -/
def edgeWeight (G : Graph) (a b : String) : Nat :=
  match G.edges.find? (edgeMatch a b) with
  | some e => e.2.2
  | none => 0

/-- Adjacency test: there is an edge joining `a` and `b`. -/
def adjB (G : Graph) (a b : String) : Bool := G.hasEdge a b

/-- `itertools.combinations(xs, 2)`: all position-ordered pairs `(xs[i], xs[j])`
with `i < j`, in the order Python yields them. -/
def pairsOf {α : Type} : List α → List (α × α)
  | [] => []
  | x :: xs => (xs.map (fun y => (x, y))) ++ pairsOf xs

/-- Per-author node bookkeeping of `build_coauthor_network` (lines 24–31):
create the node if absent with `paper_count=0` and the author's affiliation,
increment `paper_count`, then set the affiliation if the author's is
non-empty and the stored one is empty (Python truthiness on strings). -/
def processAuthor (G : Graph) (a : Author) : Graph :=
  let key := author_key a
  let G1 := if G.hasNode key then G else G.addNode key 0 a.affiliation
  let G2 := G1.incPaperCount key
  if a.affiliation ≠ "" ∧ G2.getAffiliation key = "" then
    G2.setAffiliation key a.affiliation
  else G2

/-- Edge bookkeeping for one pair from `combinations(author_keys, 2)`
(lines 33–37). -/
def addPair (G : Graph) (p : String × String) : Graph :=
  if G.hasEdge p.1 p.2 then G.incEdgeWeight p.1 p.2 else G.addEdge p.1 p.2 1

/-- Processing of one article by `build_coauthor_network` (lines 21–37):
node bookkeeping for every author, then edge bookkeeping for every
position-ordered pair of resolved keys. -/
def processArticle (G : Graph) (art : Article) : Graph :=
  let author_keys := art.authors.map author_key
  let G1 := art.authors.foldl processAuthor G
  (pairsOf author_keys).foldl addPair G1

/-- Embedding of `build_coauthor_network`. -/
def build_coauthor_network (articles : List Article) : Graph :=
  articles.foldl processArticle Graph.emptyG

/-! ## Paths and connectivity

`networkx` computes shortest paths by BFS/Dijkstra and connected components
by traversal.  Both are modelled declaratively over the (finite) set of
simple paths of the graph: a shortest path is a simple path of minimal
cost, and two nodes are connected when a simple path joins them.  With
positive integer weights every `networkx` shortest path is simple, so the
models agree with the library semantics. -/

/-- Adjacency as a relation (both endpoints of some stored edge). -/
def adjP (G : Graph) (a b : String) : Prop := adjB G a b = true

instance (G : Graph) (a b : String) : Decidable (adjP G a b) :=
  instDecidableEqBool (adjB G a b) true

/-- All lists over `keys` of length at most `n` (structural enumeration, so
that concrete instances reduce inside the kernel). -/
def listsUpTo (keys : List String) : Nat → List (List String)
  | 0 => [[]]
  | n + 1 => [[]] ++ keys.flatMap (fun x => (listsUpTo keys n).map (fun p => x :: p))

/-- Candidate paths: all lists over the node keys of length at most the node
count; a superset of all simple paths of the graph. -/
def candidates (G : Graph) : List (List String) :=
  listsUpTo G.nodeKeys G.nodeKeys.length

/-- Boolean test that consecutive nodes of a list are adjacent. -/
def chainB (G : Graph) : List String → Bool
  | [] => true
  | [_] => true
  | u :: v :: rest => adjB G u v && chainB G (v :: rest)

/-- The finite set of simple paths from `s` to `t`: duplicate-free,
consecutive nodes adjacent, starting at `s` and ending at `t`. -/
def pathsBetween (G : Graph) (s t : String) : Finset (List String) :=
  (candidates G).toFinset.filter
    (fun p => p.Nodup ∧ p.head? = some s ∧ p.getLast? = some t ∧
      chainB G p = true)

/-- Connectivity test: some simple path joins `u` and `v`. -/
def connB (G : Graph) (u v : String) : Bool :=
  decide (pathsBetween G u v).Nonempty

/-- All nodes connected to `k` (the connected component of `k`), in node
insertion order; models the vertex set of a BFS tree rooted at `k`. -/
def componentOf (G : Graph) (k : String) : List String :=
  G.nodeKeys.filter (fun w => connB G k w)

/-- Embedding of `nx.connected_components`: components listed in order of
their first node, each component as the set of nodes reachable from it. -/
def connectedComponents (G : Graph) : List (List String) :=
  G.nodeKeys.foldl
    (fun comps k =>
      if comps.any (fun c => decide (k ∈ c)) then comps
      else comps ++ [componentOf G k])
    []

/-- Hop count of a path (number of edges). -/
def hopCost (p : List String) : Nat := p.length - 1

/-- Total edge weight of a path (the Dijkstra distance cost used by
`nx.betweenness_centrality(G, weight="weight")`). -/
def weightCost (G : Graph) : List String → Nat
  | [] => 0
  | [_] => 0
  | u :: v :: rest => edgeWeight G u v + weightCost G (v :: rest)

/-! ### Walks, walk shortening, and the connectivity relation -/

/-- A walk from `s` to `t`: like a simple path but node repetition is
allowed.  Used to prove transitivity of connectivity. -/
def IsWalk (G : Graph) (s t : String) (p : List String) : Prop :=
  p.head? = some s ∧ p.getLast? = some t ∧ p.Chain' (adjP G) ∧
    ∀ x ∈ p, x ∈ G.nodeKeys

/-- The step function of `connectedComponents`. -/
def ccStep (G : Graph) (comps : List (List String)) (k : String) :
    List (List String) :=
  if comps.any (fun c => decide (k ∈ c)) then comps
  else comps ++ [componentOf G k]

/-- Disjointness of lists, elementwise. -/
def ListDisj (c d : List String) : Prop := ∀ x, x ∈ c → x ∈ d → False

/-! ## Rounding

Python's `round(x, 4)` rounds half to even at 4 decimal digits; the binary
float representation is abstracted to exact rational arithmetic. -/

/-- Round a rational to the nearest integer, ties to even. -/
def roundHalfEven (q : ℚ) : ℤ :=
  if q - (Int.floor q : ℚ) < 1/2 then Int.floor q
  else if 1/2 < q - (Int.floor q : ℚ) then Int.floor q + 1
  else if Int.floor q % 2 = 0 then Int.floor q else Int.floor q + 1

/-- Embedding of `round(x, 4)`. -/
def round4 (q : ℚ) : ℚ := ((roundHalfEven (q * 10000) : ℤ) : ℚ) / 10000

/-! ## Centrality metrics

Embeddings of the networkx routines called by `compute_centralities`,
by their documented semantics:
`nx.degree_centrality(G)`, `nx.betweenness_centrality(G, weight="weight")`
(weight used as Dijkstra distance cost; with positive integer weights the
shortest paths are exactly the simple paths of minimal total weight),
`nx.closeness_centrality(G)` (unweighted hop distances, Wasserman–Faust
improved formula, the networkx default), and `nx.clustering(G, weight="weight")`
(Onnela geometric-mean weighted clustering). -/

/-- Degree of a node: incident edge endpoints, a self-loop counting twice
(networkx `G.degree`). -/
def degreeNat (G : Graph) (v : String) : Nat :=
  (G.edges.map (fun e =>
    (if e.1 = v then 1 else 0) + (if e.2.1 = v then 1 else 0))).sum

/-- Embedding of `nx.degree_centrality`: `deg(v) / (n-1)` for `n > 1`;
networkx returns `1` for every node of a graph with at most one node. -/
def degree_centrality (G : Graph) (v : String) : ℚ :=
  if G.nodes.length ≤ 1 then 1
  else (degreeNat G v : ℚ) * (1 / ((G.nodes.length : ℚ) - 1))

/-- Hop distance from `v` to `t` (minimum over simple paths; equals the BFS
distance of `nx.single_source_shortest_path_length`); defaults to 0 when
unreachable (only used on reachable pairs). -/
def distHop (G : Graph) (v t : String) : Nat :=
  (((pathsBetween G v t).image hopCost).min).getD 0

/-- Embedding of `nx.closeness_centrality(G)` (default `wf_improved=True`):
`((r-1)/totsp) * ((r-1)/(n-1))` where `r` counts nodes reachable from `v`
(including `v`) and `totsp` is the sum of their hop distances; `0` when
`totsp = 0` or `n ≤ 1`. -/
def closeness_centrality (G : Graph) (v : String) : ℚ :=
  let n := G.nodes.length
  let reach := G.nodeKeys.filter (fun t => connB G v t)
  let totsp := (reach.map (fun t => distHop G v t)).sum
  let r := reach.length
  if 0 < totsp ∧ 1 < n then
    (((r : ℚ) - 1) / (totsp : ℚ)) * (((r : ℚ) - 1) / ((n : ℚ) - 1))
  else 0

/-- The shortest `s → t` paths for a given cost function: simple paths of
minimal cost. -/
def shortestPaths (G : Graph) (cost : List String → Nat) (s t : String) :
    Finset (List String) :=
  (pathsBetween G s t).filter (fun p => ∀ q ∈ pathsBetween G s t, cost p ≤ cost q)

/-- Number of shortest `s → t` paths (`σ_st`). -/
def sigmaAll (G : Graph) (cost : List String → Nat) (s t : String) : Nat :=
  (shortestPaths G cost s t).card

/-- Number of shortest `s → t` paths containing `v` (`σ_st(v)`; for
`v ∉ {s,t}` membership means `v` is interior). -/
def sigmaThru (G : Graph) (cost : List String → Nat) (s t v : String) : Nat :=
  ((shortestPaths G cost s t).filter (fun p => v ∈ p)).card

/-- Pair dependency `σ_st(v) / σ_st`, `0` when no path joins `s` and `t`. -/
def pairDep (G : Graph) (cost : List String → Nat) (s t v : String) : ℚ :=
  if sigmaAll G cost s t = 0 then 0
  else (sigmaThru G cost s t v : ℚ) / (sigmaAll G cost s t : ℚ)

/-- Unnormalized betweenness accumulation over ordered pairs `(s,t)` with
`s ≠ t`, `v ∉ {s,t}` (Brandes accumulation counts each unordered pair in
both directions on an undirected graph). -/
def rawBetweenness (G : Graph) (cost : List String → Nat) (v : String) : ℚ :=
  (G.nodeKeys.map (fun s =>
    (G.nodeKeys.map (fun t =>
      if s ≠ t ∧ s ≠ v ∧ t ≠ v then pairDep G cost s t v else 0)).sum)).sum

/-- Embedding of `nx.betweenness_centrality(G, weight="weight")` with the
default `normalized=True`: the ordered-pair accumulation rescaled by
`1/((n-1)(n-2))` for `n > 2`, unscaled otherwise; shortest paths minimize
total edge weight (the `weight="weight"` Dijkstra cost). -/
def betweenness_centrality (G : Graph) (v : String) : ℚ :=
  let n := G.nodes.length
  if n ≤ 2 then rawBetweenness G (weightCost G) v
  else rawBetweenness G (weightCost G) v / (((n : ℚ) - 1) * ((n : ℚ) - 2))

/-- The spec's formula for betweenness, abstracted over the path cost: sum
over unordered pairs `{s,t}` of distinct nodes other than `v` of the
fraction of shortest `s–t` paths through `v`, normalized by
`2/((n-1)(n-2))`. -/
def specBetweenness (G : Graph) (cost : List String → Nat) (v : String) : ℚ :=
  let n := G.nodes.length
  (2 / (((n : ℚ) - 1) * ((n : ℚ) - 2))) *
    ((pairsOf G.nodeKeys).map (fun st =>
      if st.1 ≠ v ∧ st.2 ≠ v then pairDep G cost st.1 st.2 v else 0)).sum

/-- The claim's reading of the spec: shortest paths by hop count only. -/
def specBetweennessHop (G : Graph) (v : String) : ℚ :=
  specBetweenness G hopCost v

/-- The amended reading: shortest paths by total edge weight. -/
def specBetweennessW (G : Graph) (v : String) : ℚ :=
  specBetweenness G (weightCost G) v

/-- Neighbors of `v` other than `v` itself (`set(G[v]) - {v}`), in node
insertion order. -/
def neighborsOf (G : Graph) (v : String) : List String :=
  G.nodeKeys.filter (fun w => w ≠ v ∧ adjB G v w)

/-- Maximum stored edge weight (`1` when the graph has no edges), as used
by networkx weighted clustering for normalization. -/
def maxWeightG (G : Graph) : Nat :=
  if G.edges.isEmpty then 1 else (G.edges.map (fun e => e.2.2)).foldl Nat.max 0

/-- Normalized weight `ŵ_uv = w_uv / max_w`. -/
def wHat (G : Graph) (u v : String) : ℚ :=
  (edgeWeight G u v : ℚ) / (maxWeightG G : ℚ)

/-- Embedding of `nx.clustering(G, weight="weight")` (Onnela): the real cube
root is irrational, so the development is parameterized over the cube-root
function `cbrt`; no verified claim depends on its values. -/
def clustering_weighted (cbrt : ℚ → ℚ) (G : Graph) (v : String) : ℚ :=
  let inbrs := neighborsOf G v
  let d := inbrs.length
  let t : ℚ := 2 * ((pairsOf inbrs).map (fun jk =>
    if adjB G jk.1 jk.2 then
      cbrt (wHat G v jk.1 * wHat G jk.1 jk.2 * wHat G jk.2 v)
    else 0)).sum
  if t = 0 then 0 else t / ((d : ℚ) * ((d : ℚ) - 1))

/-- Embedding of unweighted `nx.clustering` /
`nx.average_clustering(G)`'s per-node value: `2·T(v)/(d(v)(d(v)-1))`. -/
def clustering_unweighted (G : Graph) (v : String) : ℚ :=
  let inbrs := neighborsOf G v
  let d := inbrs.length
  let t : ℚ := 2 * (((pairsOf inbrs).filter (fun jk => adjB G jk.1 jk.2)).length : ℚ)
  if t = 0 then 0 else t / ((d : ℚ) * ((d : ℚ) - 1))

/-- Embedding of `nx.average_clustering(G)` (only called on nonempty
graphs). -/
def avg_clustering (G : Graph) : ℚ :=
  ((G.nodeKeys.map (fun v => clustering_unweighted G v)).sum) / (G.nodes.length : ℚ)

/-- Embedding of `nx.density`: `2m/(n(n-1))`, `0` when `m = 0` or `n ≤ 1`. -/
def nxDensity (G : Graph) : ℚ :=
  let n := G.nodes.length
  let m := G.edges.length
  if m = 0 ∨ n ≤ 1 then 0
  else (m : ℚ) / ((n : ℚ) * ((n : ℚ) - 1)) * 2

/-- The per-node record assembled by `compute_centralities` (lines 82–89). -/
structure CentRecord where
  paper_count : Nat
  affiliation : String
  degree_centrality : ℚ
  betweenness_centrality : ℚ
  closeness_centrality : ℚ
  clustering_coefficient : ℚ
deriving Repr, DecidableEq

/-- Embedding of `compute_centralities` (the result dict as an association
list over the nodes in insertion order). -/
def compute_centralities (cbrt : ℚ → ℚ) (G : Graph) :
    List (String × CentRecord) :=
  if G.nodes.length = 0 then []
  else
    G.nodeKeys.map (fun v =>
      (v, { paper_count := G.getPaperCount v
            affiliation := G.getAffiliation v
            degree_centrality := round4 (degree_centrality G v)
            betweenness_centrality := round4 (betweenness_centrality G v)
            closeness_centrality := round4 (closeness_centrality G v)
            clustering_coefficient := round4 (clustering_weighted cbrt G v) }))

/-- The dict returned by `get_network_stats`; the empty-graph branch returns
only the `nodes` and `edges` keys, so the other four are `Option`s. -/
structure NetworkStats where
  nodes : Nat
  edges : Nat
  density : Option ℚ
  connected_components : Option Nat
  largest_component_size : Option Nat
  avg_clustering : Option ℚ
deriving Repr, DecidableEq

/-- Embedding of `get_network_stats`.  `max(components, key=len)` picks a
component of maximal length; only its length is exposed, modelled as the
fold of `Nat.max` over the component sizes. -/
def get_network_stats (G : Graph) : NetworkStats :=
  if G.nodes.length = 0 then
    { nodes := 0, edges := 0, density := none, connected_components := none
      largest_component_size := none, avg_clustering := none }
  else
    let comps := connectedComponents G
    { nodes := G.nodes.length
      edges := G.edges.length
      density := some (round4 (nxDensity G))
      connected_components := some comps.length
      largest_component_size := some ((comps.map List.length).foldl Nat.max 0)
      avg_clustering := some (round4 (avg_clustering G)) }

/-! ## Community detection

`nx_community.greedy_modularity_communities` is an external library routine
whose result (or failure) `detect_communities` consumes; it is modelled as
an oracle parameter returning either a list of communities or an error,
matching the `try/except` in the source. -/

/-- The community-grouping oracle standing for
`greedy_modularity_communities`. -/
def Oracle : Type := Graph → Except Unit (List (List String))

/-- The documented contract of `greedy_modularity_communities`: on success
the returned communities partition the input graph's node set (nonempty,
duplicate-free, pairwise disjoint blocks covering every node). -/
def OracleOK (oracle : Oracle) : Prop :=
  ∀ (H : Graph) (comms : List (List String)),
    oracle H = Except.ok comms →
      (∀ b ∈ comms, b ≠ [] ∧ b.Nodup ∧ ∀ x ∈ b, x ∈ H.nodeKeys) ∧
      comms.Pairwise ListDisj ∧
      (∀ x ∈ H.nodeKeys, ∃ b ∈ comms, x ∈ b)

/-- `G.subgraph(comp)`: the induced subgraph on the nodes of `comp`. -/
def subgraphOf (G : Graph) (comp : List String) : Graph :=
  { nodes := G.nodes.filter (fun nd => decide (nd.key ∈ comp))
    edges := G.edges.filter (fun e => decide (e.1 ∈ comp) && decide (e.2.1 ∈ comp)) }

/-- One iteration of the component loop of `detect_communities`
(lines 50–66), on the state `(community_map, community_id)`. -/
def detectStep (oracle : Oracle) (G : Graph)
    (st : List (String × Nat) × Nat) (comp : List String) :
    List (String × Nat) × Nat :=
  if comp.length < 3 then
    (st.1 ++ comp.map (fun x => (x, st.2)), st.2 + 1)
  else
    match oracle (subgraphOf G comp) with
    | Except.ok comms =>
        comms.foldl (fun st2 comm =>
          (st2.1 ++ comm.map (fun x => (x, st2.2)), st2.2 + 1)) st
    | Except.error _ =>
        (st.1 ++ comp.map (fun x => (x, st.2)), st.2 + 1)

/-- Embedding of `detect_communities`; the Python dict is modelled as an
association list where a later binding overwrites an earlier one.
`G.copy()` is value copying, so components are computed on a graph equal
to `G`. -/
def detect_communities (oracle : Oracle) (G : Graph) : List (String × Nat) :=
  if G.nodes.length = 0 then []
  else ((connectedComponents G).foldl (detectStep oracle G) ([], 0)).1

/-- The final value of the `community_id` counter. -/
def detectCount (oracle : Oracle) (G : Graph) : Nat :=
  if G.nodes.length = 0 then 0
  else ((connectedComponents G).foldl (detectStep oracle G) ([], 0)).2

/-- Python-dict lookup on an association list: the last binding wins. -/
def dictLookup (m : List (String × Nat)) (k : String) : Option Nat :=
  (m.reverse.find? (fun p => p.1 == k)).map (fun p => p.2)

/-- The block decomposition performed by one component iteration of
`detect_communities`: a component with fewer than 3 nodes stays whole, an
oracle failure keeps the component whole (the `except` branch), and an
oracle success contributes its communities in order. -/
def blockOf (oracle : Oracle) (G : Graph) (comp : List String) :
    List (List String) :=
  if comp.length < 3 then [comp]
  else match oracle (subgraphOf G comp) with
    | Except.ok comms => comms
    | Except.error _ => [comp]

/-- Sequential id assignment: each member of the `j`-th block is bound to
community id `i + j`. -/
def assignFrom (i : Nat) : List (List String) → List (String × Nat)
  | [] => []
  | b :: bs => b.map (fun x => (x, i)) ++ assignFrom (i + 1) bs

/-- All blocks produced by a full `detect_communities` run, in assignment
order. -/
def blocksOf (oracle : Oracle) (G : Graph) : List (List String) :=
  ((connectedComponents G).map (blockOf oracle G)).flatten

/-- An oracle that always fails, standing for
`greedy_modularity_communities` raising on every input. -/
def errOracle : Oracle := fun _ => Except.error ()

/-! ## Rendering layer (`visualizer.py`)

`generate_network_html` builds a Pyvis `Network` from a read-only view of
the graph.  The data passed to `net.add_node` / `net.add_edge` is modelled
by records; the node size `10 + 30*sqrt(pc/max_papers)` is irrational, so
the radicand `pc/max_papers` is stored instead, and the HTML title strings
are presentation-only and omitted. -/

/-- The 17-entry community color palette `COMMUNITY_COLORS`. -/
def COMMUNITY_COLORS : List String :=
  ["#e6194b", "#3cb44b", "#4363d8", "#f58231", "#911eb4",
   "#42d4f4", "#f032e6", "#bfef45", "#fabed4", "#469990",
   "#dcbeff", "#9A6324", "#800000", "#aaffc3", "#808000",
   "#000075", "#a9a9a9"]

/-- The data of one `net.add_node` call (size stored via its radicand). -/
structure RenderNode where
  key : String
  label : String
  paper_count : Nat
  affiliation : String
  community : Nat
  color : String
  sizeRadicand : ℚ
deriving Repr, DecidableEq

/-- The data of one `net.add_edge` call (width `1 + 4*(w/max_w)`). -/
structure RenderEdge where
  source : String
  target : String
  value : Nat
  width : ℚ
deriving Repr, DecidableEq

/-- Embedding of `generate_network_html` (lines 23–56): `none` models the
early-return placeholder HTML when no edge survives the filter; the Python
`set` of filtered endpoints is modelled as the first-occurrence list. -/
def generate_network_html (G : Graph) (communities : List (String × Nat))
    (min_coauthor : Nat) : Option (List RenderNode × List RenderEdge) :=
  let filtered_edges := G.edges.filter (fun e => min_coauthor ≤ e.2.2)
  let nodes_in_filtered := (filtered_edges.flatMap (fun e => [e.1, e.2.1])).dedup
  if nodes_in_filtered.isEmpty then none
  else
    let max_papers := (nodes_in_filtered.map (fun v =>
      ((G.getNode v).map (fun nd => nd.paper_count)).getD 1)).foldl Nat.max 0
    let renderNodes := nodes_in_filtered.map (fun v =>
      let pc := ((G.getNode v).map (fun nd => nd.paper_count)).getD 1
      let cid := (dictLookup communities v).getD 0
      { key := v, label := v, paper_count := pc
        affiliation := G.getAffiliation v
        community := cid
        color := COMMUNITY_COLORS.getD (cid % COMMUNITY_COLORS.length) ""
        sizeRadicand := (pc : ℚ) / (max_papers : ℚ) })
    let max_weight := (filtered_edges.map (fun e => e.2.2)).foldl Nat.max 0
    let renderEdges := filtered_edges.map (fun e =>
      { source := e.1, target := e.2.1, value := e.2.2
        width := 1 + 4 * ((e.2.2 : ℚ) / (max_weight : ℚ)) })
    some (renderNodes, renderEdges)

/-! ### Explicit-state forms

In the Python source these three functions receive the graph object and
could in principle mutate it; their effects are confined to local values
(`G.copy()`, the networkx result dicts, the Pyvis `Network`), so their
explicit-state embeddings return the input graph as the post-state.  The
builder, by contrast, returns the graph it grows. -/

/-- Explicit-state `detect_communities`: the only graph operations performed
on `G` are `len(G.nodes)` and `G.copy()`; traversal and grouping run on the
copy, so the post-state is `G` itself. -/
def detect_communitiesSt (oracle : Oracle) (G : Graph) :
    List (String × Nat) × Graph :=
  (detect_communities oracle G, G)

/-- Explicit-state `compute_centralities`: the networkx metric routines read
`G` and build fresh dicts, so the post-state is `G` itself. -/
def compute_centralitiesSt (cbrt : ℚ → ℚ) (G : Graph) :
    List (String × CentRecord) × Graph :=
  (compute_centralities cbrt G, G)

/-- Explicit-state `generate_network_html`: the filter comprehension and the
attribute reads do not write to `G`; all writes target the Pyvis `Network`,
so the post-state is `G` itself. -/
def generate_network_htmlSt (G : Graph) (communities : List (String × Nat))
    (min_coauthor : Nat) :
    Option (List RenderNode × List RenderEdge) × Graph :=
  (generate_network_html G communities min_coauthor, G)

/-! ## Concrete instances used by the claims -/

/-- An author with a surname only (key = surname). -/
def mkAuthor (l : String) : Author := ⟨l, "", ""⟩

/-- The spec §8 scenario: three articles with author sets (A,B), (B,C),
(A,B,C). -/
def scenarioArticles : List Article :=
  [⟨[mkAuthor "A", mkAuthor "B"]⟩, ⟨[mkAuthor "B", mkAuthor "C"]⟩,
   ⟨[mkAuthor "A", mkAuthor "B", mkAuthor "C"]⟩]

/-- The graph built from the spec §8 scenario. -/
def scenarioG : Graph := build_coauthor_network scenarioArticles

/-- One article carrying two distinct author records that resolve to the
same key `"Smith J"`. -/
def collideArticle : Article := ⟨[⟨"Smith", "John", ""⟩, ⟨"Smith", "Jane", ""⟩]⟩

/-- The graph built from the single colliding article. -/
def collideG : Graph := build_coauthor_network [collideArticle]

/-- Triangle whose direct `s–t` edge is heavier than the two-hop detour via
`v`: weighted and hop-count shortest paths differ. -/
def triG : Graph :=
  ⟨[⟨"s", 1, ""⟩, ⟨"v", 1, ""⟩, ⟨"t", 1, ""⟩],
   [("s", "t", 3), ("s", "v", 1), ("v", "t", 1)]⟩

/-- A one-node graph. -/
def oneG : Graph := ⟨[⟨"A", 1, ""⟩], []⟩

/-- A two-node graph with one edge. -/
def twoG : Graph := ⟨[⟨"A", 1, ""⟩, ⟨"B", 1, ""⟩], [("A", "B", 1)]⟩

/-- Lookup in the `compute_centralities` result dict (keys are unique, so
first match suffices). -/
def lookupCent (m : List (String × CentRecord)) (k : String) :
    Option CentRecord :=
  (m.find? (fun p => p.1 == k)).map (fun p => p.2)

/-- Equality of `{a,b}` and `{u,v}` as unordered pairs (oriented to match
`edgeMatch a b (u, v, w)`). -/
def pairEqB (a b u v : String) : Bool :=
  (u == a && v == b) || (u == b && v == a)

/-- Well-formedness of a graph value, i.e. the representation invariants of
a `networkx.Graph` satisfying the spec's Graph data model: unique node
keys, edges between existing distinct nodes (no self-loops, per the spec's
Graph invariant), at most one stored edge per unordered pair, and positive
weights. -/
structure Graph.WF (G : Graph) : Prop where
  nodes_nodup : G.nodeKeys.Nodup
  edges_fst_mem : ∀ e ∈ G.edges, e.1 ∈ G.nodeKeys
  edges_snd_mem : ∀ e ∈ G.edges, e.2.1 ∈ G.nodeKeys
  no_loop : ∀ e ∈ G.edges, e.1 ≠ e.2.1
  pairs_nodup : (G.edges.map (fun e => ({e.1, e.2.1} : Finset String))).Nodup
  weight_pos : ∀ e ∈ G.edges, 1 ≤ e.2.2

/-- The endpoint of an edge other than `v` (meaningful for edges incident
to `v`). -/
def otherEnd (v : String) (e : String × String × Nat) : String :=
  if e.1 = v then e.2.1 else e.1

/-! ## Theorems -/

theorem chainB_iff (G : Graph) :
    ∀ p : List String, chainB G p = true ↔ p.Chain' (adjP G) := by
  intro p
  induction p with
  | nil => simp [chainB]
  | cons u rest ih =>
    cases rest with
    | nil => simp [chainB]
    | cons v rest2 =>
      rw [show chainB G (u :: v :: rest2) =
        (adjB G u v && chainB G (v :: rest2)) from rfl]
      rw [Bool.and_eq_true, ih, List.chain'_cons]
      unfold adjP
      tauto

/-! ### Membership characterization and reversal -/

theorem mem_listsUpTo (keys : List String) :
    ∀ (n : Nat) (q : List String),
      q ∈ listsUpTo keys n ↔ q.length ≤ n ∧ ∀ x ∈ q, x ∈ keys := by
  intro n
  induction n with
  | zero =>
    intro q
    constructor
    · intro h
      rw [listsUpTo, List.mem_singleton] at h
      subst h
      simp
    · rintro ⟨h1, _⟩
      rw [List.length_eq_zero.mp (Nat.le_zero.mp h1)]
      rw [listsUpTo]
      exact List.mem_singleton.mpr rfl
  | succ n ih =>
    intro q
    rw [listsUpTo]
    rw [List.mem_append, List.mem_singleton, List.mem_flatMap]
    constructor
    · rintro (rfl | ⟨x, hx, hq⟩)
      · simp
      · rw [List.mem_map] at hq
        obtain ⟨p, hp, rfl⟩ := hq
        obtain ⟨hl, hs⟩ := (ih p).mp hp
        refine ⟨by simpa using Nat.succ_le_succ hl, ?_⟩
        intro y hy
        rcases List.mem_cons.mp hy with rfl | hy2
        · exact hx
        · exact hs y hy2
    · rintro ⟨hl, hs⟩
      cases q with
      | nil => exact Or.inl rfl
      | cons x p =>
        refine Or.inr ⟨x, hs x (List.mem_cons_self x p), ?_⟩
        rw [List.mem_map]
        refine ⟨p, (ih p).mpr ⟨?_, ?_⟩, rfl⟩
        · exact Nat.le_of_succ_le_succ (by simpa using hl)
        · intro y hy
          exact hs y (List.mem_cons_of_mem x hy)

theorem mem_candidates_of (G : Graph) (p : List String)
    (hnd : p.Nodup) (hsub : p ⊆ G.nodeKeys) : p ∈ candidates G := by
  unfold candidates
  rw [mem_listsUpTo]
  exact ⟨List.Subperm.length_le (List.Nodup.subperm hnd hsub),
    fun x hx => hsub hx⟩

theorem subset_nodeKeys_of_mem_candidates (G : Graph) (p : List String)
    (h : p ∈ candidates G) : p ⊆ G.nodeKeys := by
  unfold candidates at h
  rw [mem_listsUpTo] at h
  exact fun x hx => h.2 x hx

theorem reverse_mem_candidates (G : Graph) (p : List String)
    (h : p ∈ candidates G) : p.reverse ∈ candidates G := by
  unfold candidates at h ⊢
  rw [mem_listsUpTo] at h ⊢
  refine ⟨by rw [List.length_reverse]; exact h.1, ?_⟩
  intro x hx
  exact h.2 x (List.mem_reverse.mp hx)

/-- Full membership description of `pathsBetween`. -/
theorem mem_pathsBetween (G : Graph) (s t : String) (p : List String) :
    p ∈ pathsBetween G s t ↔
      p.Nodup ∧ p ⊆ G.nodeKeys ∧ p.head? = some s ∧ p.getLast? = some t ∧
        p.Chain' (adjP G) := by
  unfold pathsBetween
  rw [Finset.mem_filter, List.mem_toFinset]
  constructor
  · rintro ⟨hc, hnd, h1, h2, h3⟩
    exact ⟨hnd, subset_nodeKeys_of_mem_candidates G p hc, h1, h2,
      (chainB_iff G p).mp h3⟩
  · rintro ⟨hnd, hsub, h1, h2, h3⟩
    exact ⟨mem_candidates_of G p hnd hsub, hnd, h1, h2,
      (chainB_iff G p).mpr h3⟩

theorem adjB_symm (G : Graph) (a b : String) : adjB G a b = adjB G b a := by
  unfold adjB Graph.hasEdge
  congr 1
  funext e
  unfold edgeMatch
  exact Bool.or_comm ..

theorem adjP_symm {G : Graph} {a b : String} (h : adjP G a b) : adjP G b a := by
  unfold adjP at h ⊢
  rw [adjB_symm G b a]
  exact h

theorem edgeMatch_symm (a b : String) :
    edgeMatch a b = edgeMatch b a := by
  funext e
  unfold edgeMatch
  exact Bool.or_comm ..

theorem edgeWeight_symm (G : Graph) (a b : String) :
    edgeWeight G a b = edgeWeight G b a := by
  unfold edgeWeight
  rw [edgeMatch_symm a b]

/-- Reversal carries simple `s → t` paths to simple `t → s` paths. -/
theorem reverse_mem_pathsBetween (G : Graph) (s t : String) (p : List String)
    (h : p ∈ pathsBetween G s t) : p.reverse ∈ pathsBetween G t s := by
  unfold pathsBetween at h ⊢
  rw [Finset.mem_filter, List.mem_toFinset] at h ⊢
  obtain ⟨hc, hnd, h1, h2, h3⟩ := h
  refine ⟨reverse_mem_candidates G p hc, List.nodup_reverse.mpr hnd, ?_, ?_, ?_⟩
  · rw [List.head?_reverse]; exact h2
  · rw [List.getLast?_reverse]; exact h1
  · rw [chainB_iff, List.chain'_reverse]
    exact List.Chain'.imp (fun a b hab => adjP_symm hab)
      ((chainB_iff G p).mp h3)

theorem pathsBetween_reverse (G : Graph) (s t : String) :
    pathsBetween G t s = (pathsBetween G s t).image List.reverse := by
  ext p
  rw [Finset.mem_image]
  constructor
  · intro hp
    refine ⟨p.reverse, reverse_mem_pathsBetween G t s p hp, ?_⟩
    exact List.reverse_reverse p
  · rintro ⟨q, hq, rfl⟩
    exact reverse_mem_pathsBetween G s t q hq

theorem reverse_injective_lists :
    Function.Injective (fun l : List String => l.reverse) := by
  intro a b h
  simpa using congrArg List.reverse h

/-- Hop count is invariant under path reversal. -/
theorem hopCost_reverse (p : List String) : hopCost p.reverse = hopCost p := by
  unfold hopCost
  rw [List.length_reverse]

theorem weightCost_concat (G : Graph) (q : List String) (u : String) :
    weightCost G (q ++ [u]) =
      weightCost G q + (match q.getLast? with
        | some x => edgeWeight G x u
        | none => 0) := by
  induction q with
  | nil => simp [weightCost]
  | cons x q ih =>
    cases q with
    | nil => simp [weightCost]
    | cons y q2 =>
      have : ((x :: y :: q2) ++ [u]) = x :: ((y :: q2) ++ [u]) := rfl
      rw [this]
      show edgeWeight G x y + weightCost G ((y :: q2) ++ [u]) = _
      rw [ih]
      have hl : (x :: y :: q2).getLast? = (y :: q2).getLast? := by
        rw [List.getLast?_cons_cons]
      rw [hl]
      show _ = edgeWeight G x y + weightCost G (y :: q2) + _
      omega

/-- Total edge weight is invariant under path reversal. -/
theorem weightCost_reverse (G : Graph) (p : List String) :
    weightCost G p.reverse = weightCost G p := by
  induction p with
  | nil => rfl
  | cons u p ih =>
    cases p with
    | nil => rfl
    | cons v rest =>
      have hrev : (u :: v :: rest).reverse = (v :: rest).reverse ++ [u] := by
        simp
      rw [hrev, weightCost_concat]
      have hl : (v :: rest).reverse.getLast? = some v := by
        rw [List.getLast?_reverse]; rfl
      rw [hl, ih]
      show weightCost G (v :: rest) + edgeWeight G v u =
        weightCost G (u :: v :: rest)
      have hw : weightCost G (u :: v :: rest) =
          edgeWeight G u v + weightCost G (v :: rest) := rfl
      rw [hw, edgeWeight_symm G v u]
      omega

theorem mem_pathsBetween_of (G : Graph) {s t : String} {p : List String}
    (hnd : p.Nodup) (hsub : p ⊆ G.nodeKeys) (h1 : p.head? = some s)
    (h2 : p.getLast? = some t) (h3 : p.Chain' (adjP G)) :
    p ∈ pathsBetween G s t := by
  unfold pathsBetween
  rw [Finset.mem_filter, List.mem_toFinset]
  exact ⟨mem_candidates_of G p hnd hsub, hnd, h1, h2, (chainB_iff G p).mpr h3⟩

theorem exists_split_of_not_nodup {α : Type} {l : List α} (h : ¬ l.Nodup) :
    ∃ (xs : List α) (a : α) (ys zs : List α), l = xs ++ a :: ys ++ a :: zs := by
  classical
  induction l with
  | nil => simp at h
  | cons x l ih =>
    by_cases hx : x ∈ l
    · obtain ⟨ys, zs, rfl⟩ := List.append_of_mem hx
      exact ⟨[], x, ys, zs, rfl⟩
    · have hl : ¬ l.Nodup := fun hn => h (List.nodup_cons.mpr ⟨hx, hn⟩)
      obtain ⟨xs, a, ys, zs, rfl⟩ := ih hl
      exact ⟨x :: xs, a, ys, zs, rfl⟩

theorem isWalk_shorten (G : Graph) (s t : String) (xs ys zs : List String)
    (a : String) (hw : IsWalk G s t (xs ++ a :: ys ++ a :: zs)) :
    IsWalk G s t (xs ++ a :: zs) := by
  obtain ⟨h1, h2, h3, h4⟩ := hw
  refine ⟨?_, ?_, ?_, ?_⟩
  · cases xs with
    | nil => simpa using h1
    | cons x xs2 => simpa using h1
  · rw [List.getLast?_append_cons] at h2
    rw [List.getLast?_append_cons]
    exact h2
  · rw [List.chain'_append] at h3
    obtain ⟨hc1, hc2, hlink⟩ := h3
    rw [List.chain'_append] at hc1
    obtain ⟨hc11, hc12, hlink2⟩ := hc1
    rw [List.chain'_append]
    refine ⟨hc11, hc2, ?_⟩
    intro x hx y hy
    have hy' : a = y := by simpa using hy
    subst hy'
    exact hlink2 x hx a (by simp)
  · intro x hx
    apply h4
    simp only [List.mem_append, List.mem_cons] at hx ⊢
    tauto

/-- Every walk can be shortened to a simple path with the same endpoints. -/
theorem exists_path_of_walk (G : Graph) :
    ∀ (n : Nat) (s t : String) (p : List String), p.length ≤ n →
      IsWalk G s t p → (pathsBetween G s t).Nonempty := by
  intro n
  induction n with
  | zero =>
    intro s t p hlen hw
    have : p = [] := List.length_eq_zero.mp (Nat.le_zero.mp hlen)
    subst this
    simp [IsWalk] at hw
  | succ n ih =>
    intro s t p hlen hw
    by_cases hnd : p.Nodup
    · exact ⟨p, mem_pathsBetween_of G hnd (fun x hx => hw.2.2.2 x hx)
        hw.1 hw.2.1 hw.2.2.1⟩
    · obtain ⟨xs, a, ys, zs, rfl⟩ := exists_split_of_not_nodup hnd
      refine ih s t (xs ++ a :: zs) ?_ (isWalk_shorten G s t xs ys zs a hw)
      have := hlen
      simp only [List.length_append, List.length_cons] at this ⊢
      omega

theorem isWalk_of_mem_pathsBetween (G : Graph) {s t : String}
    {p : List String} (h : p ∈ pathsBetween G s t) : IsWalk G s t p := by
  unfold pathsBetween at h
  rw [Finset.mem_filter, List.mem_toFinset] at h
  obtain ⟨hc, _, h1, h2, h3⟩ := h
  exact ⟨h1, h2, (chainB_iff G p).mp h3,
    fun x hx => subset_nodeKeys_of_mem_candidates G p hc hx⟩

theorem connB_refl (G : Graph) {k : String} (hk : k ∈ G.nodeKeys) :
    connB G k k = true := by
  unfold connB
  rw [decide_eq_true_iff]
  refine ⟨[k], mem_pathsBetween_of G ?_ ?_ rfl rfl ?_⟩
  · exact List.nodup_singleton k
  · intro x hx; rw [List.mem_singleton] at hx; subst hx; exact hk
  · exact List.chain'_singleton k

theorem connB_symm (G : Graph) (u v : String) : connB G u v = connB G v u := by
  unfold connB
  refine decide_eq_decide.mpr ?_
  constructor
  · rintro ⟨p, hp⟩
    exact ⟨p.reverse, reverse_mem_pathsBetween G u v p hp⟩
  · rintro ⟨p, hp⟩
    exact ⟨p.reverse, reverse_mem_pathsBetween G v u p hp⟩

theorem connB_trans (G : Graph) {u v w : String}
    (h1 : connB G u v = true) (h2 : connB G v w = true) :
    connB G u w = true := by
  unfold connB at h1 h2 ⊢
  rw [decide_eq_true_iff] at h1 h2 ⊢
  obtain ⟨p, hp⟩ := h1
  obtain ⟨q, hq⟩ := h2
  have hwp := isWalk_of_mem_pathsBetween G hp
  have hwq := isWalk_of_mem_pathsBetween G hq
  obtain ⟨hq1, hq2, hq3, hq4⟩ := hwq
  cases q with
  | nil => simp at hq1
  | cons v0 qt =>
    have hv0 : v0 = v := by simpa using hq1
    subst hv0
    cases qt with
    | nil =>
      have hvw : v0 = w := by simpa using hq2
      subst hvw
      exact ⟨p, hp⟩
    | cons y yt =>
      obtain ⟨hp1, hp2, hp3, hp4⟩ := hwp
      have hpne : p ≠ [] := by
        intro hnil; subst hnil; simp at hp1
      refine exists_path_of_walk G (p ++ y :: yt).length u w (p ++ y :: yt)
        le_rfl ⟨?_, ?_, ?_, ?_⟩
      · rw [List.head?_append]
        rw [show p.head? = some u from hp1]
        rfl
      · rw [List.getLast?_append_cons]
        rw [List.getLast?_cons_cons] at hq2
        exact hq2
      · rw [List.chain'_append]
        refine ⟨hp3, List.Chain'.tail hq3, ?_⟩
        intro x hx z hz
        have hxv : v0 = x := by
          rw [hp2] at hx; simpa using hx
        subst hxv
        have hzy : y = z := by simpa using hz
        subst hzy
        exact (List.chain'_cons'.mp hq3).1 y rfl
      · intro x hx
        rw [List.mem_append] at hx
        rcases hx with hx | hx
        · exact hp4 x hx
        · exact hq4 x (by simp [hx])

/-! ### Properties of `connectedComponents` -/

theorem mem_componentOf (G : Graph) (k w : String) :
    w ∈ componentOf G k ↔ w ∈ G.nodeKeys ∧ connB G k w = true := by
  unfold componentOf
  rw [List.mem_filter]

theorem componentOf_nodup (G : Graph) (hkeys : G.nodeKeys.Nodup)
    (k : String) : (componentOf G k).Nodup :=
  List.Nodup.filter _ hkeys

theorem self_mem_componentOf (G : Graph) {k : String} (hk : k ∈ G.nodeKeys) :
    k ∈ componentOf G k :=
  (mem_componentOf G k k).mpr ⟨hk, connB_refl G hk⟩

theorem connectedComponents_eq_foldl (G : Graph) :
    connectedComponents G = G.nodeKeys.foldl (ccStep G) [] := rfl

theorem cc_foldl_mono (G : Graph) :
    ∀ (ks : List String) (comps : List (List String)) (c : List String),
      c ∈ comps → c ∈ ks.foldl (ccStep G) comps := by
  intro ks
  induction ks with
  | nil => intro comps c hc; exact hc
  | cons k ks ih =>
    intro comps c hc
    show c ∈ ks.foldl (ccStep G) (ccStep G comps k)
    apply ih
    unfold ccStep
    by_cases h : comps.any (fun c => decide (k ∈ c))
    · rw [if_pos h]; exact hc
    · rw [if_neg h]; exact List.mem_append_left _ hc

theorem ccStep_shape (G : Graph) (comps : List (List String)) (k : String)
    (hshape : ∀ c ∈ comps, ∃ r ∈ G.nodeKeys, c = componentOf G r)
    (hk : k ∈ G.nodeKeys) :
    ∀ c ∈ ccStep G comps k, ∃ r ∈ G.nodeKeys, c = componentOf G r := by
  intro d hd
  unfold ccStep at hd
  by_cases h : comps.any (fun c => decide (k ∈ c))
  · rw [if_pos h] at hd; exact hshape d hd
  · rw [if_neg h] at hd
    rcases List.mem_append.mp hd with hd | hd
    · exact hshape d hd
    · rw [List.mem_singleton] at hd
      exact ⟨k, hk, hd⟩

theorem cc_foldl_shape (G : Graph) :
    ∀ (ks : List String) (comps : List (List String)),
      (∀ c ∈ comps, ∃ r ∈ G.nodeKeys, c = componentOf G r) →
      ks ⊆ G.nodeKeys →
      ∀ c ∈ ks.foldl (ccStep G) comps, ∃ r ∈ G.nodeKeys, c = componentOf G r := by
  intro ks
  induction ks with
  | nil => intro comps hc _ c hmem; exact hc c hmem
  | cons k ks ih =>
    intro comps hc hsub c hmem
    exact ih (ccStep G comps k)
      (ccStep_shape G comps k hc (hsub (List.mem_cons_self k ks)))
      (fun x hx => hsub (List.mem_cons_of_mem k hx)) c hmem

/-- Every component of `connectedComponents` is the reachability set of one
of the graph's nodes. -/
theorem connectedComponents_shape (G : Graph) :
    ∀ c ∈ connectedComponents G, ∃ r ∈ G.nodeKeys, c = componentOf G r := by
  rw [connectedComponents_eq_foldl]
  exact cc_foldl_shape G G.nodeKeys [] (by intro c hc; cases hc) (fun x hx => hx)

theorem cc_foldl_cover (G : Graph) :
    ∀ (ks : List String) (comps : List (List String)),
      ks ⊆ G.nodeKeys →
      ∀ k ∈ ks, ∃ c ∈ ks.foldl (ccStep G) comps, k ∈ c := by
  intro ks
  induction ks with
  | nil => intro comps _ k hk; cases hk
  | cons k0 ks ih =>
    intro comps hsub k hk
    rcases List.mem_cons.mp hk with rfl | hk2
    · show ∃ c ∈ ks.foldl (ccStep G) (ccStep G comps k), k ∈ c
      unfold ccStep
      by_cases h : comps.any (fun c => decide (k ∈ c))
      · rw [List.any_eq_true] at h
        obtain ⟨c, hc, hkc⟩ := h
        rw [decide_eq_true_iff] at hkc
        rw [if_pos (by rw [List.any_eq_true]; exact ⟨c, hc, decide_eq_true hkc⟩)]
        exact ⟨c, cc_foldl_mono G ks comps c hc, hkc⟩
      · rw [if_neg h]
        refine ⟨componentOf G k, cc_foldl_mono G ks _ _ ?_, ?_⟩
        · exact List.mem_append_right _ (List.mem_singleton.mpr rfl)
        · exact self_mem_componentOf G (hsub (List.mem_cons_self k ks))
    · exact ih (ccStep G comps k0)
        (fun x hx => hsub (List.mem_cons_of_mem k0 hx)) k hk2

/-- Every node of the graph lies in some connected component. -/
theorem connectedComponents_cover (G : Graph) :
    ∀ k ∈ G.nodeKeys, ∃ c ∈ connectedComponents G, k ∈ c := by
  rw [connectedComponents_eq_foldl]
  exact cc_foldl_cover G G.nodeKeys [] (fun x hx => hx)

theorem componentOf_disj (G : Graph) {r k : String} (hr : r ∈ G.nodeKeys)
    (hk : k ∈ G.nodeKeys) (hnot : k ∉ componentOf G r) :
    ListDisj (componentOf G r) (componentOf G k) := by
  intro x hx1 hx2
  rw [mem_componentOf] at hx1 hx2
  apply hnot
  rw [mem_componentOf]
  refine ⟨hk, connB_trans G hx1.2 ?_⟩
  rw [connB_symm]
  exact hx2.2

theorem cc_foldl_disjoint (G : Graph) :
    ∀ (ks : List String) (comps : List (List String)),
      (∀ c ∈ comps, ∃ r ∈ G.nodeKeys, c = componentOf G r) →
      ks ⊆ G.nodeKeys →
      comps.Pairwise ListDisj →
      (ks.foldl (ccStep G) comps).Pairwise ListDisj := by
  intro ks
  induction ks with
  | nil => intro comps _ _ hp; exact hp
  | cons k ks ih =>
    intro comps hshape hsub hp
    show (List.foldl (ccStep G) (ccStep G comps k) ks).Pairwise ListDisj
    have hk : k ∈ G.nodeKeys := hsub (List.mem_cons_self k ks)
    refine ih (ccStep G comps k) (ccStep_shape G comps k hshape hk)
      (fun x hx => hsub (List.mem_cons_of_mem k hx)) ?_
    unfold ccStep
    by_cases h : comps.any (fun c => decide (k ∈ c))
    · rw [if_pos h]; exact hp
    · rw [if_neg h]
      rw [List.pairwise_append]
      refine ⟨hp, List.pairwise_singleton .., ?_⟩
      intro c hc d hd
      rw [List.mem_singleton] at hd
      subst hd
      obtain ⟨r, hr, rfl⟩ := hshape c hc
      refine componentOf_disj G hr hk ?_
      intro hkc
      apply h
      rw [List.any_eq_true]
      exact ⟨componentOf G r, hc, decide_eq_true hkc⟩

/-- The connected components are pairwise disjoint. -/
theorem connectedComponents_disjoint (G : Graph) :
    (connectedComponents G).Pairwise ListDisj := by
  rw [connectedComponents_eq_foldl]
  exact cc_foldl_disjoint G G.nodeKeys [] (by intro c hc; cases hc)
    (fun x hx => hx) List.Pairwise.nil

/-- Components are duplicate-free subsets of the node keys, and nonempty. -/
theorem connectedComponents_wf (G : Graph) (hkeys : G.nodeKeys.Nodup) :
    ∀ c ∈ connectedComponents G,
      c.Nodup ∧ c ⊆ G.nodeKeys ∧ c ≠ [] := by
  intro c hc
  obtain ⟨r, hr, rfl⟩ := connectedComponents_shape G c hc
  refine ⟨componentOf_nodup G hkeys r, ?_, ?_⟩
  · intro x hx
    exact ((mem_componentOf G r x).mp hx).1
  · intro hnil
    have := self_mem_componentOf G hr
    rw [hnil] at this
    cases this

/-! ### Paper-count bookkeeping -/

theorem getPaperCount_congr {G1 G2 : Graph} (h : G1.nodes = G2.nodes)
    (k : String) : G1.getPaperCount k = G2.getPaperCount k := by
  unfold Graph.getPaperCount Graph.getNode
  rw [h]

theorem addPair_nodes (G : Graph) (p : String × String) :
    (addPair G p).nodes = G.nodes := by
  unfold addPair Graph.incEdgeWeight Graph.addEdge
  split <;> rfl

theorem foldl_addPair_nodes (ps : List (String × String)) :
    ∀ G : Graph, (ps.foldl addPair G).nodes = G.nodes := by
  induction ps with
  | nil => intro G; rfl
  | cons p ps ih =>
    intro G
    show (ps.foldl addPair (addPair G p)).nodes = G.nodes
    rw [ih (addPair G p), addPair_nodes]

theorem hasNode_iff (G : Graph) (k : String) :
    G.hasNode k = true ↔ ∃ nd ∈ G.nodes, nd.key = k := by
  unfold Graph.hasNode Graph.nodeKeys
  rw [show (List.map (fun nd => nd.key) G.nodes).contains k = true ↔
    k ∈ List.map (fun nd => nd.key) G.nodes from List.elem_iff]
  rw [List.mem_map]

theorem find?_map_key_preserving (f : NodeData → NodeData)
    (hf : ∀ nd, (f nd).key = nd.key) (l : List NodeData) (k : String) :
    (l.map f).find? (fun nd => nd.key == k) =
      (l.find? (fun nd => nd.key == k)).map f := by
  rw [List.find?_map]
  have hpred : ((fun nd => nd.key == k) ∘ f) = (fun nd => nd.key == k) := by
    funext nd
    show ((f nd).key == k) = (nd.key == k)
    rw [hf nd]
  rw [hpred]

theorem getPaperCount_incPaperCount (G : Graph) (k' k : String) :
    (G.incPaperCount k').getPaperCount k =
      G.getPaperCount k + (if k = k' ∧ G.hasNode k = true then 1 else 0) := by
  have hmap : (G.incPaperCount k').getNode k = (G.getNode k).map
      (fun nd => if nd.key == k'
        then { nd with paper_count := nd.paper_count + 1 } else nd) := by
    show (G.nodes.map (fun nd => if nd.key == k'
        then { nd with paper_count := nd.paper_count + 1 } else nd)).find?
          (fun nd => nd.key == k) = _
    exact find?_map_key_preserving _ (by intro nd; split <;> rfl) G.nodes k
  unfold Graph.getPaperCount
  rw [hmap]
  cases hfind : G.getNode k with
  | none =>
    have hno : ¬ (G.hasNode k = true) := by
      rw [hasNode_iff]
      rintro ⟨nd, hnd, hk⟩
      unfold Graph.getNode at hfind
      rw [List.find?_eq_none] at hfind
      exact hfind nd hnd (by simpa using hk)
    rw [if_neg (fun h => hno h.2)]
    rfl
  | some nd =>
    have hkey : nd.key = k := by
      unfold Graph.getNode at hfind
      simpa using List.find?_some hfind
    have hhas : G.hasNode k = true := by
      rw [hasNode_iff]
      refine ⟨nd, ?_, hkey⟩
      unfold Graph.getNode at hfind
      exact List.mem_of_find?_eq_some hfind
    by_cases hkk : k = k'
    · subst hkk
      rw [if_pos ⟨rfl, hhas⟩]
      show (if nd.key == k then { nd with paper_count := nd.paper_count + 1 }
        else nd).paper_count = nd.paper_count + 1
      rw [if_pos (show (nd.key == k) = true by simp [hkey])]
    · rw [if_neg (fun h => hkk h.1)]
      have hne : (nd.key == k') = false := by
        rw [hkey]
        exact beq_eq_false_iff_ne.mpr hkk
      show (if nd.key == k' then { nd with paper_count := nd.paper_count + 1 }
        else nd).paper_count = nd.paper_count + 0
      rw [hne]
      simp

theorem getPaperCount_setAffiliation (G : Graph) (k' aff k : String) :
    (G.setAffiliation k' aff).getPaperCount k = G.getPaperCount k := by
  have hmap : (G.setAffiliation k' aff).getNode k = (G.getNode k).map
      (fun nd => if nd.key == k'
        then { nd with affiliation := aff } else nd) := by
    show (G.nodes.map (fun nd => if nd.key == k'
        then { nd with affiliation := aff } else nd)).find?
          (fun nd => nd.key == k) = _
    exact find?_map_key_preserving _ (by intro nd; split <;> rfl) G.nodes k
  unfold Graph.getPaperCount
  rw [hmap]
  cases hfind : G.getNode k with
  | none => rfl
  | some nd =>
    show (if nd.key == k' then { nd with affiliation := aff }
      else nd).paper_count = nd.paper_count
    split <;> rfl

theorem getPaperCount_addNode (G : Graph) (k' aff k : String) :
    (G.addNode k' 0 aff).getPaperCount k = G.getPaperCount k := by
  have hmap : (G.addNode k' 0 aff).getNode k =
      (G.getNode k).or ([(⟨k', 0, aff⟩ : NodeData)].find?
        (fun nd => nd.key == k)) := by
    show (G.nodes ++ [(⟨k', 0, aff⟩ : NodeData)]).find? (fun nd => nd.key == k) = _
    exact List.find?_append ..
  unfold Graph.getPaperCount
  rw [hmap]
  cases hfind : G.getNode k with
  | some nd => rfl
  | none =>
    show (([(⟨k', 0, aff⟩ : NodeData)].find? (fun nd => nd.key == k)).map
      (fun nd => nd.paper_count)).getD 0 = 0
    by_cases hk : ((k' : String) == k) = true
    · rw [List.find?_cons_of_pos _ (by simpa using hk)]
      rfl
    · rw [List.find?_cons_of_neg _ (by simpa using hk)]
      rfl

theorem hasNode_addNode_self (G : Graph) (k : String) (pc : Nat)
    (aff : String) : (G.addNode k pc aff).hasNode k = true := by
  rw [hasNode_iff]
  exact ⟨⟨k, pc, aff⟩, List.mem_append_right _ (List.mem_singleton.mpr rfl),
    rfl⟩

theorem processAuthor_paperCount (G : Graph) (a : Author) (k : String) :
    (processAuthor G a).getPaperCount k =
      G.getPaperCount k + (if author_key a = k then 1 else 0) := by
  simp only [processAuthor]
  by_cases hn : G.hasNode (author_key a) = true
  · rw [if_pos hn]
    have hmain : (G.incPaperCount (author_key a)).getPaperCount k =
        G.getPaperCount k + (if author_key a = k then 1 else 0) := by
      rw [getPaperCount_incPaperCount]
      by_cases hk : k = author_key a
      · subst hk
        rw [if_pos ⟨rfl, hn⟩, if_pos rfl]
      · rw [if_neg (fun h => hk h.1), if_neg (fun h => hk h.symm)]
    split
    · rw [getPaperCount_setAffiliation]
      exact hmain
    · exact hmain
  · rw [if_neg hn]
    have hmain : ((G.addNode (author_key a) 0 a.affiliation).incPaperCount
        (author_key a)).getPaperCount k =
        G.getPaperCount k + (if author_key a = k then 1 else 0) := by
      rw [getPaperCount_incPaperCount, getPaperCount_addNode]
      by_cases hk : k = author_key a
      · subst hk
        rw [if_pos ⟨rfl, hasNode_addNode_self G (author_key a) 0
          a.affiliation⟩, if_pos rfl]
      · rw [if_neg (fun h => hk h.1), if_neg (fun h => hk h.symm)]
    split
    · rw [getPaperCount_setAffiliation]
      exact hmain
    · exact hmain

theorem foldl_processAuthor_paperCount (authors : List Author) :
    ∀ (G : Graph) (k : String),
      (authors.foldl processAuthor G).getPaperCount k =
        G.getPaperCount k +
          (authors.filter (fun a => author_key a == k)).length := by
  induction authors with
  | nil => intro G k; simp
  | cons a authors ih =>
    intro G k
    show (authors.foldl processAuthor (processAuthor G a)).getPaperCount k = _
    rw [ih (processAuthor G a) k, processAuthor_paperCount]
    by_cases hk : author_key a = k
    · have hb : (author_key a == k) = true := by simpa using hk
      simp only [List.filter_cons, hb, if_true, List.length_cons, if_pos hk]
      omega
    · have hb : (author_key a == k) = false := by simpa using hk
      simp only [List.filter_cons, hb, Bool.false_eq_true, if_false, if_neg hk]
      omega

theorem processArticle_paperCount (G : Graph) (art : Article) (k : String) :
    (processArticle G art).getPaperCount k =
      G.getPaperCount k +
        (art.authors.filter (fun a => author_key a == k)).length := by
  unfold processArticle
  rw [getPaperCount_congr (foldl_addPair_nodes _ _) k]
  exact foldl_processAuthor_paperCount art.authors G k

theorem build_paperCount (articles : List Article) :
    ∀ (G : Graph) (k : String),
      (articles.foldl processArticle G).getPaperCount k =
        G.getPaperCount k + (articles.map (fun art =>
          (art.authors.filter (fun a => author_key a == k)).length)).sum := by
  induction articles with
  | nil => intro G k; simp
  | cons art articles ih =>
    intro G k
    show (articles.foldl processArticle (processArticle G art)).getPaperCount k = _
    rw [ih, processArticle_paperCount]
    rw [List.map_cons, List.sum_cons]
    omega

/-! ### Edge-weight bookkeeping -/

theorem processAuthor_edges (G : Graph) (a : Author) :
    (processAuthor G a).edges = G.edges := by
  simp only [processAuthor]
  by_cases hn : G.hasNode (author_key a) = true
  · rw [if_pos hn]
    split <;> rfl
  · rw [if_neg hn]
    split <;> rfl

theorem foldl_processAuthor_edges (authors : List Author) :
    ∀ G : Graph, (authors.foldl processAuthor G).edges = G.edges := by
  induction authors with
  | nil => intro G; rfl
  | cons a authors ih =>
    intro G
    show (authors.foldl processAuthor (processAuthor G a)).edges = G.edges
    rw [ih, processAuthor_edges]

theorem edgeWeight_congr {G1 G2 : Graph} (h : G1.edges = G2.edges)
    (a b : String) : edgeWeight G1 a b = edgeWeight G2 a b := by
  unfold edgeWeight
  rw [h]

theorem hasEdge_congr {G1 G2 : Graph} (h : G1.edges = G2.edges)
    (a b : String) : G1.hasEdge a b = G2.hasEdge a b := by
  unfold Graph.hasEdge
  rw [h]

theorem edgeMatch_eq_of_pairEqB {a b u v : String}
    (h : pairEqB a b u v = true) : edgeMatch a b = edgeMatch u v := by
  funext e
  unfold pairEqB at h
  unfold edgeMatch
  rw [Bool.or_eq_true, Bool.and_eq_true, Bool.and_eq_true] at h
  rcases h with ⟨h1, h2⟩ | ⟨h1, h2⟩
  · rw [beq_iff_eq] at h1 h2
    subst h1
    subst h2
    rfl
  · rw [beq_iff_eq] at h1 h2
    subst h1
    subst h2
    exact Bool.or_comm ..

theorem pairEqB_of_edgeMatch {a b u v : String} {e : String × String × Nat}
    (h1 : edgeMatch a b e = true) (h2 : edgeMatch u v e = true) :
    pairEqB a b u v = true := by
  unfold edgeMatch at h1 h2
  unfold pairEqB
  simp only [Bool.or_eq_true, Bool.and_eq_true, beq_iff_eq] at h1 h2 ⊢
  rcases h1 with ⟨ha, hb⟩ | ⟨ha, hb⟩ <;> rcases h2 with ⟨hu, hv⟩ | ⟨hu, hv⟩ <;>
    simp_all

theorem find?_map_edge_preserving (f : String × String × Nat →
      String × String × Nat)
    (hf : ∀ e, (f e).1 = e.1 ∧ (f e).2.1 = e.2.1)
    (l : List (String × String × Nat)) (a b : String) :
    (l.map f).find? (edgeMatch a b) = (l.find? (edgeMatch a b)).map f := by
  rw [List.find?_map]
  have hpred : (edgeMatch a b ∘ f) = edgeMatch a b := by
    funext e
    show edgeMatch a b (f e) = edgeMatch a b e
    unfold edgeMatch
    rw [(hf e).1, (hf e).2]
  rw [hpred]

theorem hasEdge_iff_find? (G : Graph) (a b : String) :
    G.hasEdge a b = true ↔ (G.edges.find? (edgeMatch a b)).isSome = true := by
  unfold Graph.hasEdge
  rw [List.any_eq_true, List.find?_isSome]

theorem edgeWeight_addPair (G : Graph) (p : String × String) (a b : String) :
    edgeWeight (addPair G p) a b =
      edgeWeight G a b + (if pairEqB a b p.1 p.2 then 1 else 0) := by
  unfold addPair
  by_cases hE : G.hasEdge p.1 p.2 = true
  · rw [if_pos hE]
    have hmap : (G.incEdgeWeight p.1 p.2).edges.find? (edgeMatch a b) =
        (G.edges.find? (edgeMatch a b)).map (fun e =>
          if edgeMatch p.1 p.2 e then (e.1, e.2.1, e.2.2 + 1) else e) := by
      show (G.edges.map (fun e => if edgeMatch p.1 p.2 e
        then (e.1, e.2.1, e.2.2 + 1) else e)).find? (edgeMatch a b) = _
      exact find?_map_edge_preserving _ (by intro e; constructor <;>
        (split <;> rfl)) G.edges a b
    unfold edgeWeight
    rw [hmap]
    cases hfind : G.edges.find? (edgeMatch a b) with
    | none =>
      rw [if_neg ?notpair]
      case notpair =>
        intro hpq
        rw [hasEdge_iff_find?, ← edgeMatch_eq_of_pairEqB hpq] at hE
        rw [hfind] at hE
        cases hE
      rfl
    | some e0 =>
      have he0 : edgeMatch a b e0 = true := List.find?_some hfind
      by_cases hpq : pairEqB a b p.1 p.2 = true
      · rw [if_pos hpq]
        have hm2 : edgeMatch p.1 p.2 e0 = true := by
          rw [← edgeMatch_eq_of_pairEqB hpq]
          exact he0
        show (if edgeMatch p.1 p.2 e0 then (e0.1, e0.2.1, e0.2.2 + 1)
          else e0).2.2 = e0.2.2 + 1
        rw [if_pos hm2]
      · rw [if_neg hpq]
        have hm2 : edgeMatch p.1 p.2 e0 = false := by
          cases hm : edgeMatch p.1 p.2 e0 with
          | false => rfl
          | true => exact absurd (pairEqB_of_edgeMatch he0 hm) hpq
        show (if edgeMatch p.1 p.2 e0 then (e0.1, e0.2.1, e0.2.2 + 1)
          else e0).2.2 = e0.2.2 + 0
        rw [if_neg (by rw [hm2]; exact Bool.false_ne_true)]
        rfl
  · rw [if_neg hE]
    have hmap : (G.addEdge p.1 p.2 1).edges.find? (edgeMatch a b) =
        (G.edges.find? (edgeMatch a b)).or
          ([(p.1, p.2, 1)].find? (edgeMatch a b)) := by
      show (G.edges ++ [(p.1, p.2, 1)]).find? (edgeMatch a b) = _
      exact List.find?_append ..
    unfold edgeWeight
    rw [hmap]
    cases hfind : G.edges.find? (edgeMatch a b) with
    | some e0 =>
      rw [if_neg ?notpair2]
      case notpair2 =>
        intro hpq
        rw [hasEdge_iff_find?, ← edgeMatch_eq_of_pairEqB hpq] at hE
        rw [hfind] at hE
        exact hE rfl
      rfl
    | none =>
      have hm : edgeMatch a b (p.1, p.2, 1) = pairEqB a b p.1 p.2 := rfl
      by_cases hpq : pairEqB a b p.1 p.2 = true
      · rw [if_pos hpq]
        show (match [(p.1, p.2, 1)].find? (edgeMatch a b) with
          | some e => e.2.2 | none => 0) = 0 + 1
        rw [List.find?_cons_of_pos _ (by rw [hm]; exact hpq)]
      · rw [if_neg hpq]
        show (match [(p.1, p.2, 1)].find? (edgeMatch a b) with
          | some e => e.2.2 | none => 0) = 0 + 0
        rw [List.find?_cons_of_neg _ (by rw [hm]; exact hpq)]
        rfl

theorem edgeWeight_foldl_addPair (ps : List (String × String)) :
    ∀ (G : Graph) (a b : String),
      edgeWeight (ps.foldl addPair G) a b =
        edgeWeight G a b + ps.countP (fun p => pairEqB a b p.1 p.2) := by
  induction ps with
  | nil => intro G a b; simp
  | cons p ps ih =>
    intro G a b
    show edgeWeight (ps.foldl addPair (addPair G p)) a b = _
    rw [ih, edgeWeight_addPair, List.countP_cons]
    omega

theorem mem_pairsOf {α : Type} (l : List α) :
    ∀ p : α × α, p ∈ pairsOf l → p.1 ∈ l ∧ p.2 ∈ l := by
  induction l with
  | nil => intro p hp; cases hp
  | cons x xs ih =>
    intro p hp
    unfold pairsOf at hp
    rw [List.mem_append] at hp
    rcases hp with hp | hp
    · rw [List.mem_map] at hp
      obtain ⟨y, hy, rfl⟩ := hp
      exact ⟨List.mem_cons_self x xs, List.mem_cons_of_mem x hy⟩
    · obtain ⟨h1, h2⟩ := ih p hp
      exact ⟨List.mem_cons_of_mem x h1, List.mem_cons_of_mem x h2⟩

theorem pairsOf_ne {α : Type} [DecidableEq α] (l : List α) :
    ∀ (hnd : l.Nodup) (p : α × α), p ∈ pairsOf l → p.1 ≠ p.2 := by
  induction l with
  | nil => intro _ p hp; cases hp
  | cons x xs ih =>
    intro hnd p hp
    rw [List.nodup_cons] at hnd
    unfold pairsOf at hp
    rw [List.mem_append] at hp
    rcases hp with hp | hp
    · rw [List.mem_map] at hp
      obtain ⟨y, hy, rfl⟩ := hp
      intro hxy
      have hxy2 : x = y := hxy
      exact hnd.1 (hxy2 ▸ hy)
    · exact ih hnd.2 p hp

theorem countP_pairsOf_nodup (a b : String) (hab : a ≠ b) :
    ∀ keys : List String, keys.Nodup →
      (pairsOf keys).countP (fun p => pairEqB a b p.1 p.2) =
        if a ∈ keys ∧ b ∈ keys then 1 else 0 := by
  intro keys
  induction keys with
  | nil => intro _; simp [pairsOf]
  | cons x xs ih =>
    intro hnd
    rw [List.nodup_cons] at hnd
    unfold pairsOf
    rw [List.countP_append, List.countP_map, ih hnd.2]
    by_cases hxa : a = x
    · subst hxa
      have hcm : List.countP ((fun p => pairEqB a b p.1 p.2) ∘
          (fun y => (a, y))) xs = if b ∈ xs then 1 else 0 := by
        have hpred : ((fun p => pairEqB a b p.1 p.2) ∘ (fun y => (a, y))) =
            (fun y => y == b) := by
          funext y
          show pairEqB a b a y = (y == b)
          unfold pairEqB
          rw [show (a == a) = true by simp]
          rw [show (a == b) = false from beq_eq_false_iff_ne.mpr hab]
          simp
        rw [hpred]
        by_cases hb : b ∈ xs
        · rw [if_pos hb]
          have := List.count_eq_one_of_mem hnd.2 hb
          simpa [List.count] using this
        · rw [if_neg hb]
          rw [List.countP_eq_zero]
          intro y hy
          simp only [beq_iff_eq]
          intro h
          exact hb (h ▸ hy)
      rw [hcm]
      have hnotx : ¬ (a ∈ xs ∧ b ∈ xs) := fun h => hnd.1 h.1
      rw [if_neg hnotx]
      by_cases hb : b ∈ xs
      · rw [if_pos hb, if_pos ⟨List.mem_cons_self a xs,
          List.mem_cons_of_mem a hb⟩]
      · rw [if_neg hb, if_neg ?hnb]
        case hnb =>
          rintro ⟨_, hbmem⟩
          rcases List.mem_cons.mp hbmem with h | h
          · exact hab h.symm
          · exact hb h
    · by_cases hxb : b = x
      · subst hxb
        have hcm : List.countP ((fun p => pairEqB a b p.1 p.2) ∘
            (fun y => (b, y))) xs = if a ∈ xs then 1 else 0 := by
          have hpred : ((fun p => pairEqB a b p.1 p.2) ∘ (fun y => (b, y))) =
              (fun y => y == a) := by
            funext y
            show pairEqB a b b y = (y == a)
            unfold pairEqB
            rw [show (b == b) = true by simp]
            rw [show (b == a) = false from beq_eq_false_iff_ne.mpr
              (fun h => hab h.symm)]
            simp
          rw [hpred]
          by_cases ha : a ∈ xs
          · rw [if_pos ha]
            have := List.count_eq_one_of_mem hnd.2 ha
            simpa [List.count] using this
          · rw [if_neg ha]
            rw [List.countP_eq_zero]
            intro y hy
            simp only [beq_iff_eq]
            intro h
            exact ha (h ▸ hy)
        rw [hcm]
        have hnotx : ¬ (a ∈ xs ∧ b ∈ xs) := fun h => hnd.1 h.2
        rw [if_neg hnotx]
        by_cases ha : a ∈ xs
        · rw [if_pos ha, if_pos ⟨List.mem_cons_of_mem b ha,
            List.mem_cons_self b xs⟩]
        · rw [if_neg ha, if_neg ?hna]
          case hna =>
            rintro ⟨hamem, _⟩
            rcases List.mem_cons.mp hamem with h | h
            · exact hab h
            · exact ha h
      · have hcm : List.countP ((fun p => pairEqB a b p.1 p.2) ∘
            (fun y => (x, y))) xs = 0 := by
          rw [List.countP_eq_zero]
          intro y _
          show ¬ pairEqB a b x y = true
          unfold pairEqB
          rw [show (x == a) = false from beq_eq_false_iff_ne.mpr
            (fun h => hxa h.symm)]
          rw [show (x == b) = false from beq_eq_false_iff_ne.mpr
            (fun h => hxb h.symm)]
          simp
        rw [hcm]
        have hiff : (a ∈ x :: xs ∧ b ∈ x :: xs) ↔ (a ∈ xs ∧ b ∈ xs) := by
          constructor
          · rintro ⟨ha, hb⟩
            refine ⟨?_, ?_⟩
            · rcases List.mem_cons.mp ha with h | h
              · exact absurd h hxa
              · exact h
            · rcases List.mem_cons.mp hb with h | h
              · exact absurd h hxb
              · exact h
          · rintro ⟨ha, hb⟩
            exact ⟨List.mem_cons_of_mem x ha, List.mem_cons_of_mem x hb⟩
        by_cases hax : a ∈ xs ∧ b ∈ xs
        · rw [if_pos hax, if_pos (hiff.mpr hax)]
        · rw [if_neg hax, if_neg (fun h => hax (hiff.mp h))]

theorem processArticle_edgeWeight (G : Graph) (art : Article) (a b : String)
    (hab : a ≠ b) (hnd : (art.authors.map author_key).Nodup) :
    edgeWeight (processArticle G art) a b =
      edgeWeight G a b + (if a ∈ art.authors.map author_key ∧
        b ∈ art.authors.map author_key then 1 else 0) := by
  unfold processArticle
  rw [edgeWeight_foldl_addPair]
  rw [edgeWeight_congr (foldl_processAuthor_edges art.authors G) a b]
  rw [countP_pairsOf_nodup a b hab _ hnd]

theorem addPair_no_loop (G : Graph) (p : String × String) (hp : p.1 ≠ p.2)
    (hG : ∀ e ∈ G.edges, e.1 ≠ e.2.1) :
    ∀ e ∈ (addPair G p).edges, e.1 ≠ e.2.1 := by
  unfold addPair
  split
  · intro e he
    unfold Graph.incEdgeWeight at he
    rw [show ({ G with edges := G.edges.map (fun e =>
      if edgeMatch p.1 p.2 e then (e.1, e.2.1, e.2.2 + 1) else e) } :
        Graph).edges = G.edges.map (fun e =>
      if edgeMatch p.1 p.2 e then (e.1, e.2.1, e.2.2 + 1) else e) from rfl,
      List.mem_map] at he
    obtain ⟨e0, he0, rfl⟩ := he
    have h0 := hG e0 he0
    split <;> exact h0
  · intro e he
    unfold Graph.addEdge at he
    rw [show ({ G with edges := G.edges ++ [(p.1, p.2, 1)] } : Graph).edges =
      G.edges ++ [(p.1, p.2, 1)] from rfl, List.mem_append] at he
    rcases he with he | he
    · exact hG e he
    · rw [List.mem_singleton] at he
      subst he
      exact hp

theorem foldl_addPair_no_loop (ps : List (String × String)) :
    ∀ G : Graph, (∀ p ∈ ps, p.1 ≠ p.2) → (∀ e ∈ G.edges, e.1 ≠ e.2.1) →
      ∀ e ∈ (ps.foldl addPair G).edges, e.1 ≠ e.2.1 := by
  induction ps with
  | nil => intro G _ hG; exact hG
  | cons p ps ih =>
    intro G hps hG
    show ∀ e ∈ (ps.foldl addPair (addPair G p)).edges, e.1 ≠ e.2.1
    exact ih (addPair G p) (fun q hq => hps q (List.mem_cons_of_mem p hq))
      (addPair_no_loop G p (hps p (List.mem_cons_self p ps)) hG)

theorem processArticle_no_loop (G : Graph) (art : Article)
    (hnd : (art.authors.map author_key).Nodup)
    (hG : ∀ e ∈ G.edges, e.1 ≠ e.2.1) :
    ∀ e ∈ (processArticle G art).edges, e.1 ≠ e.2.1 := by
  unfold processArticle
  refine foldl_addPair_no_loop _ _ ?_ ?_
  · exact fun p hp => pairsOf_ne _ hnd p hp
  · rw [foldl_processAuthor_edges]
    exact hG

theorem build_no_loop (articles : List Article) :
    ∀ G : Graph, (∀ art ∈ articles, (art.authors.map author_key).Nodup) →
      (∀ e ∈ G.edges, e.1 ≠ e.2.1) →
      ∀ e ∈ (articles.foldl processArticle G).edges, e.1 ≠ e.2.1 := by
  induction articles with
  | nil => intro G _ hG; exact hG
  | cons art articles ih =>
    intro G hdist hG
    show ∀ e ∈ (articles.foldl processArticle (processArticle G art)).edges,
      e.1 ≠ e.2.1
    exact ih (processArticle G art)
      (fun x hx => hdist x (List.mem_cons_of_mem art hx))
      (processArticle_no_loop G art (hdist art (List.mem_cons_self art articles)) hG)

theorem build_edgeWeight (articles : List Article) (a b : String)
    (hab : a ≠ b) :
    ∀ G : Graph, (∀ art ∈ articles, (art.authors.map author_key).Nodup) →
      edgeWeight (articles.foldl processArticle G) a b =
        edgeWeight G a b + articles.countP (fun art =>
          decide (a ∈ art.authors.map author_key) &&
          decide (b ∈ art.authors.map author_key)) := by
  induction articles with
  | nil => intro G _; simp
  | cons art articles ih =>
    intro G hdist
    show edgeWeight (articles.foldl processArticle (processArticle G art)) a b = _
    rw [ih (processArticle G art)
      (fun x hx => hdist x (List.mem_cons_of_mem art hx))]
    rw [processArticle_edgeWeight G art a b hab
      (hdist art (List.mem_cons_self art articles))]
    rw [List.countP_cons]
    have hind : (if a ∈ art.authors.map author_key ∧
        b ∈ art.authors.map author_key then 1 else 0) =
        (if (decide (a ∈ art.authors.map author_key) &&
          decide (b ∈ art.authors.map author_key)) = true then 1 else 0) := by
      by_cases h : a ∈ art.authors.map author_key ∧
        b ∈ art.authors.map author_key
      · rw [if_pos h, if_pos (by simp [h.1, h.2])]
      · rw [if_neg h, if_neg (by simpa using h)]
    rw [hind]
    omega

/-! ### Rounding bounds -/

theorem roundHalfEven_ge_floor (q : ℚ) : Int.floor q ≤ roundHalfEven q := by
  unfold roundHalfEven
  split
  · exact le_refl _
  · split
    · omega
    · split
      · exact le_refl _
      · omega

theorem roundHalfEven_le_of_le_int (q : ℚ) (N : ℤ) (h : q ≤ (N : ℚ)) :
    roundHalfEven q ≤ N := by
  have hf : Int.floor q ≤ N := by
    have := Int.floor_le_floor h
    rw [Int.floor_intCast] at this
    exact this
  by_cases heq : Int.floor q = N
  · have hr : q - (Int.floor q : ℚ) < 1/2 := by
      rw [heq]
      have : q - (N : ℚ) ≤ 0 := by linarith
      linarith
    unfold roundHalfEven
    rw [if_pos hr]
    exact hf
  · have hf1 : Int.floor q + 1 ≤ N := by omega
    unfold roundHalfEven
    split
    · exact hf
    · split
      · exact hf1
      · split
        · exact hf
        · exact hf1

theorem roundHalfEven_ge_of_int_le (q : ℚ) (N : ℤ) (h : (N : ℚ) ≤ q) :
    N ≤ roundHalfEven q := by
  have hf : N ≤ Int.floor q := by
    have := Int.floor_le_floor h
    rw [Int.floor_intCast] at this
    exact this
  exact le_trans hf (roundHalfEven_ge_floor q)

theorem round4_nonneg {q : ℚ} (h : 0 ≤ q) : 0 ≤ round4 q := by
  unfold round4
  have h1 : (0 : ℤ) ≤ roundHalfEven (q * 10000) := by
    refine roundHalfEven_ge_of_int_le _ 0 ?_
    push_cast
    positivity
  have h2 : (0 : ℚ) ≤ (roundHalfEven (q * 10000) : ℚ) := by exact_mod_cast h1
  positivity

theorem round4_le_one {q : ℚ} (h : q ≤ 1) : round4 q ≤ 1 := by
  unfold round4
  have h1 : roundHalfEven (q * 10000) ≤ 10000 := by
    refine roundHalfEven_le_of_le_int _ 10000 ?_
    push_cast
    linarith
  have h2 : (roundHalfEven (q * 10000) : ℚ) ≤ 10000 := by exact_mod_cast h1
  linarith

theorem round4_zero : round4 0 = 0 := by
  norm_num [round4, roundHalfEven]

theorem round4_one : round4 1 = 1 := by
  norm_num [round4, roundHalfEven]

/-! ### Degree bound -/

theorem degreeNat_eq_filter_length (v : String) :
    ∀ l : List (String × String × Nat), (∀ e ∈ l, e.1 ≠ e.2.1) →
      (l.map (fun e => (if e.1 = v then 1 else 0) +
        (if e.2.1 = v then 1 else 0))).sum =
      (l.filter (fun e => e.1 == v || e.2.1 == v)).length := by
  intro l
  induction l with
  | nil => intro _; rfl
  | cons e l ih =>
    intro hloop
    rw [List.map_cons, List.sum_cons,
      ih (fun x hx => hloop x (List.mem_cons_of_mem e hx))]
    rw [List.filter_cons]
    by_cases h1 : e.1 = v
    · have h2 : e.2.1 ≠ v := fun h =>
        hloop e (List.mem_cons_self e l) (by rw [h1, h])
      rw [if_pos h1, if_neg h2]
      rw [if_pos (by simp [h1])]
      rw [List.length_cons]
      omega
    · by_cases h2 : e.2.1 = v
      · rw [if_neg h1, if_pos h2]
        rw [if_pos (by simp [h2])]
        rw [List.length_cons]
        omega
      · rw [if_neg h1, if_neg h2]
        rw [if_neg (by simp [h1, h2])]
        omega

theorem incidentEdges_otherEnd_nodup (G : Graph) (hwf : G.WF) (v : String) :
    ((G.edges.filter (fun e => e.1 == v || e.2.1 == v)).map
      (otherEnd v)).Nodup := by
  have hsub : (G.edges.filter (fun e => e.1 == v || e.2.1 == v)).Sublist
      G.edges := List.filter_sublist _
  have hnd : ((G.edges.filter (fun e => e.1 == v || e.2.1 == v)).map
      (fun e => ({e.1, e.2.1} : Finset String))).Nodup :=
    List.Nodup.sublist (hsub.map _) hwf.pairs_nodup
  have hcongr : (G.edges.filter (fun e => e.1 == v || e.2.1 == v)).map
      (fun e => ({e.1, e.2.1} : Finset String)) =
      ((G.edges.filter (fun e => e.1 == v || e.2.1 == v)).map
        (otherEnd v)).map (fun w => ({v, w} : Finset String)) := by
    rw [List.map_map]
    refine List.map_congr_left ?_
    intro e he
    rw [List.mem_filter] at he
    have hor := he.2
    rw [Bool.or_eq_true, beq_iff_eq, beq_iff_eq] at hor
    show ({e.1, e.2.1} : Finset String) = {v, otherEnd v e}
    unfold otherEnd
    rcases hor with h1 | h2
    · rw [if_pos h1, h1]
    · by_cases h1 : e.1 = v
      · rw [if_pos h1, h1]
      · rw [if_neg h1, h2]
        exact Finset.pair_comm e.1 v
  rw [hcongr] at hnd
  exact List.Nodup.of_map _ hnd

theorem degreeNat_le (G : Graph) (hwf : G.WF) (v : String)
    (hv : v ∈ G.nodeKeys) : degreeNat G v ≤ G.nodes.length - 1 := by
  unfold degreeNat
  rw [degreeNat_eq_filter_length v G.edges hwf.no_loop]
  have hlen : (G.edges.filter (fun e => e.1 == v || e.2.1 == v)).length =
      ((G.edges.filter (fun e => e.1 == v || e.2.1 == v)).map
        (otherEnd v)).length := by
    rw [List.length_map]
  rw [hlen]
  have hnd := incidentEdges_otherEnd_nodup G hwf v
  have hsubset : ∀ w ∈ (G.edges.filter (fun e => e.1 == v || e.2.1 == v)).map
      (otherEnd v), w ∈ G.nodeKeys.erase v := by
    intro w hw
    rw [List.mem_map] at hw
    obtain ⟨e, he, rfl⟩ := hw
    rw [List.mem_filter] at he
    have hor := he.2
    rw [Bool.or_eq_true, beq_iff_eq, beq_iff_eq] at hor
    have hmem : otherEnd v e ∈ G.nodeKeys ∧ otherEnd v e ≠ v := by
      unfold otherEnd
      by_cases h1 : e.1 = v
      · rw [if_pos h1]
        exact ⟨hwf.edges_snd_mem e he.1, fun h =>
          hwf.no_loop e he.1 (by rw [h1, h])⟩
      · rw [if_neg h1]
        exact ⟨hwf.edges_fst_mem e he.1, h1⟩
    rw [List.Nodup.mem_erase_iff hwf.nodes_nodup]
    exact ⟨hmem.2, hmem.1⟩
  have hle : ((G.edges.filter (fun e => e.1 == v || e.2.1 == v)).map
      (otherEnd v)).length ≤ (G.nodeKeys.erase v).length :=
    List.Subperm.length_le (List.Nodup.subperm hnd hsubset)
  have herase : (G.nodeKeys.erase v).length = G.nodeKeys.length - 1 :=
    List.length_erase_of_mem hv
  have hkeys : G.nodeKeys.length = G.nodes.length := List.length_map ..
  omega

/-! ### Closeness bounds -/

theorem path_length_ge_two (G : Graph) {v t : String} (hne : v ≠ t)
    {p : List String} (hp : p ∈ pathsBetween G v t) : 2 ≤ p.length := by
  rw [mem_pathsBetween] at hp
  obtain ⟨_, _, hh, hl, _⟩ := hp
  cases p with
  | nil => cases hh
  | cons x q =>
    cases q with
    | nil =>
      have hx1 : x = v := by simpa using hh
      have hx2 : x = t := by simpa using hl
      exact absurd (hx1.symm.trans hx2) hne
    | cons y r =>
      simp only [List.length_cons]
      omega

theorem distHop_pos (G : Graph) (v t : String) (hne : v ≠ t)
    (hconn : connB G v t = true) : 1 ≤ distHop G v t := by
  unfold connB at hconn
  rw [decide_eq_true_iff] at hconn
  have himg : ((pathsBetween G v t).image hopCost).Nonempty :=
    hconn.image hopCost
  unfold distHop
  obtain ⟨m, hm⟩ := Finset.min_of_nonempty himg
  rw [hm]
  have hmem : m ∈ (pathsBetween G v t).image hopCost := Finset.mem_of_min hm
  rw [Finset.mem_image] at hmem
  obtain ⟨p, hp, rfl⟩ := hmem
  have := path_length_ge_two G hne hp
  show 1 ≤ hopCost p
  unfold hopCost
  omega

theorem filter_ne_length_ge (v : String) :
    ∀ L : List String, L.Nodup →
      L.length - 1 ≤ (L.filter (fun x => x ≠ v)).length := by
  intro L
  induction L with
  | nil => intro _; simp
  | cons x L ih =>
    intro hnd
    rw [List.nodup_cons] at hnd
    rw [List.filter_cons]
    by_cases hx : x = v
    · subst hx
      rw [if_neg (by simp)]
      have hfe : L.filter (fun y => y ≠ x) = L := by
        rw [List.filter_eq_self]
        intro y hy
        exact decide_eq_true (fun h => hnd.1 (h ▸ hy))
      rw [hfe]
      simp
    · rw [if_pos (by simp [hx])]
      rw [List.length_cons, List.length_cons]
      have := ih hnd.2
      omega

theorem sum_ge_filter_count (v : String) (f : String → Nat) :
    ∀ L : List String, (∀ x ∈ L, x ≠ v → 1 ≤ f x) →
      (L.filter (fun x => x ≠ v)).length ≤ (L.map f).sum := by
  intro L
  induction L with
  | nil => intro _; simp
  | cons x L ih =>
    intro hf
    rw [List.filter_cons, List.map_cons, List.sum_cons]
    have hrec := ih (fun y hy hyv => hf y (List.mem_cons_of_mem x hy) hyv)
    by_cases hx : x = v
    · rw [if_neg (by simp [hx])]
      omega
    · rw [if_pos (by simp [hx])]
      have := hf x (List.mem_cons_self x L) hx
      rw [List.length_cons]
      omega

theorem closeness_mem_unit (G : Graph) (hwf : G.WF) (v : String)
    (hv : v ∈ G.nodeKeys) :
    0 ≤ closeness_centrality G v ∧ closeness_centrality G v ≤ 1 := by
  simp only [closeness_centrality]
  split
  case isFalse => exact ⟨le_refl 0, by norm_num⟩
  case isTrue h =>
    obtain ⟨htot, hn⟩ := h
    have hr1 : 1 ≤ (G.nodeKeys.filter (fun t => connB G v t)).length := by
      have hvmem : v ∈ G.nodeKeys.filter (fun t => connB G v t) := by
        rw [List.mem_filter]
        exact ⟨hv, connB_refl G hv⟩
      exact List.length_pos.mpr (fun hnil => by rw [hnil] at hvmem; cases hvmem)
    have hrn : (G.nodeKeys.filter (fun t => connB G v t)).length ≤
        G.nodes.length := by
      have h1 := List.length_filter_le (fun t => connB G v t) G.nodeKeys
      have h2 : G.nodeKeys.length = G.nodes.length := List.length_map ..
      omega
    have hsum : (G.nodeKeys.filter (fun t => connB G v t)).length - 1 ≤
        ((G.nodeKeys.filter (fun t => connB G v t)).map
          (fun t => distHop G v t)).sum := by
      have hnd : (G.nodeKeys.filter (fun t => connB G v t)).Nodup :=
        List.Nodup.filter _ hwf.nodes_nodup
      have h1 := filter_ne_length_ge v _ hnd
      have h2 : ((G.nodeKeys.filter (fun t => connB G v t)).filter
          (fun x => x ≠ v)).length ≤
          ((G.nodeKeys.filter (fun t => connB G v t)).map
            (fun t => distHop G v t)).sum := by
        refine sum_ge_filter_count v _ _ ?_
        intro t ht htv
        rw [List.mem_filter] at ht
        exact distHop_pos G v t (fun h => htv h.symm) ht.2
      omega
    constructor
    · have h1 : (0:ℚ) ≤ ((G.nodeKeys.filter (fun t => connB G v t)).length :
          ℚ) - 1 := by
        have : (1:ℚ) ≤ ((G.nodeKeys.filter (fun t => connB G v t)).length :
          ℚ) := by exact_mod_cast hr1
        linarith
      have h2 : (0:ℚ) ≤ (((G.nodeKeys.filter (fun t => connB G v t)).map
          (fun t => distHop G v t)).sum : ℚ) := by positivity
      have h3 : (0:ℚ) ≤ (G.nodes.length : ℚ) - 1 := by
        have : (1:ℚ) ≤ (G.nodes.length : ℚ) := by exact_mod_cast le_of_lt hn
        linarith
      positivity
    · have hq1 : ((G.nodeKeys.filter (fun t => connB G v t)).length : ℚ) - 1 ≤
          (((G.nodeKeys.filter (fun t => connB G v t)).map
            (fun t => distHop G v t)).sum : ℚ) := by
        have hc2 : (((G.nodeKeys.filter (fun t => connB G v t)).length - 1 :
            Nat) : ℚ) ≤ (((G.nodeKeys.filter (fun t => connB G v t)).map
            (fun t => distHop G v t)).sum : ℚ) := by exact_mod_cast hsum
        rw [Nat.cast_sub hr1] at hc2
        push_cast at hc2 ⊢
        linarith
      have hq2 : ((G.nodeKeys.filter (fun t => connB G v t)).length : ℚ) - 1 ≤
          (G.nodes.length : ℚ) - 1 := by
        have : ((G.nodeKeys.filter (fun t => connB G v t)).length : ℚ) ≤
          (G.nodes.length : ℚ) := by exact_mod_cast hrn
        linarith
      have hqt : (0:ℚ) < (((G.nodeKeys.filter (fun t => connB G v t)).map
          (fun t => distHop G v t)).sum : ℚ) := by exact_mod_cast htot
      have hqn : (0:ℚ) < (G.nodes.length : ℚ) - 1 := by
        have : (2:ℚ) ≤ (G.nodes.length : ℚ) := by exact_mod_cast hn
        linarith
      have hnum : (0:ℚ) ≤ ((G.nodeKeys.filter
          (fun t => connB G v t)).length : ℚ) - 1 := by
        have : (1:ℚ) ≤ ((G.nodeKeys.filter (fun t => connB G v t)).length :
          ℚ) := by exact_mod_cast hr1
        linarith
      refine mul_le_one₀ ?_ (by positivity) ?_
      · rw [div_le_one hqt]
        exact hq1
      · rw [div_le_one hqn]
        exact hq2

/-! ### Density bound -/

theorem edges_le_choose (G : Graph) (hwf : G.WF) :
    2 * G.edges.length ≤ G.nodes.length * (G.nodes.length - 1) := by
  have hnd := hwf.pairs_nodup
  have hcard : (G.edges.map (fun e =>
      ({e.1, e.2.1} : Finset String))).toFinset.card = G.edges.length := by
    rw [List.toFinset_card_of_nodup hnd, List.length_map]
  have hsub : (G.edges.map (fun e =>
      ({e.1, e.2.1} : Finset String))).toFinset ⊆
      G.nodeKeys.toFinset.powersetCard 2 := by
    intro s hs
    rw [List.mem_toFinset, List.mem_map] at hs
    obtain ⟨e, he, rfl⟩ := hs
    rw [Finset.mem_powersetCard]
    constructor
    · intro x hx
      rw [Finset.mem_insert, Finset.mem_singleton] at hx
      rw [List.mem_toFinset]
      rcases hx with rfl | rfl
      · exact hwf.edges_fst_mem e he
      · exact hwf.edges_snd_mem e he
    · rw [Finset.card_insert_of_not_mem
        (by rw [Finset.mem_singleton]; exact hwf.no_loop e he),
        Finset.card_singleton]
  have hle := Finset.card_le_card hsub
  rw [hcard, Finset.card_powersetCard] at hle
  have hkc : G.nodeKeys.toFinset.card = G.nodes.length := by
    rw [List.toFinset_card_of_nodup hwf.nodes_nodup]
    exact List.length_map ..
  rw [hkc, Nat.choose_two_right] at hle
  have hdvd : 2 ∣ G.nodes.length * (G.nodes.length - 1) := by
    rcases Nat.even_or_odd G.nodes.length with he | ho
    · exact Dvd.dvd.mul_right he.two_dvd _
    · have heven : Even (G.nodes.length - 1) := by
        rcases ho with ⟨k, hk⟩
        exact ⟨k, by omega⟩
      exact Dvd.dvd.mul_left heven.two_dvd _
  omega

theorem nxDensity_mem_unit (G : Graph) (hwf : G.WF) :
    0 ≤ nxDensity G ∧ nxDensity G ≤ 1 := by
  simp only [nxDensity]
  split
  · exact ⟨le_refl 0, by norm_num⟩
  case isFalse h =>
    push_neg at h
    obtain ⟨hm, hn⟩ := h
    have hn2 : 2 ≤ G.nodes.length := by omega
    have hpos : (0:ℚ) < (G.nodes.length : ℚ) * ((G.nodes.length : ℚ) - 1) := by
      have h2 : (2:ℚ) ≤ (G.nodes.length : ℚ) := by exact_mod_cast hn2
      nlinarith
    constructor
    · have h0 : (0:ℚ) ≤ (G.edges.length : ℚ) := by positivity
      positivity
    · rw [div_mul_eq_mul_div, div_le_one hpos]
      have hc := edges_le_choose G hwf
      have hcast : ((2 * G.edges.length : Nat) : ℚ) ≤
          ((G.nodes.length * (G.nodes.length - 1) : Nat) : ℚ) :=
        Nat.cast_le.mpr hc
      rw [Nat.cast_mul, Nat.cast_mul, Nat.cast_sub (by omega)] at hcast
      push_cast at hcast ⊢
      linarith

/-! ### Degree centrality bound -/

theorem degree_centrality_mem_unit (G : Graph) (hwf : G.WF) (v : String)
    (hv : v ∈ G.nodeKeys) (hn : 1 < G.nodes.length) :
    0 ≤ degree_centrality G v ∧ degree_centrality G v ≤ 1 := by
  unfold degree_centrality
  rw [if_neg (by omega)]
  have hd := degreeNat_le G hwf v hv
  have hpos : (0:ℚ) < (G.nodes.length : ℚ) - 1 := by
    have : (2:ℚ) ≤ (G.nodes.length : ℚ) := by exact_mod_cast hn
    linarith
  constructor
  · positivity
  · have h1 : ((degreeNat G v : Nat) : ℚ) ≤
        ((G.nodes.length - 1 : Nat) : ℚ) := Nat.cast_le.mpr hd
    rw [Nat.cast_sub (by omega)] at h1
    push_cast at h1
    rw [mul_one_div, div_le_one hpos]
    exact h1

/-! ### Community-detection structure -/

theorem foldl_assign (comms : List (List String)) :
    ∀ (m : List (String × Nat)) (i : Nat),
      comms.foldl (fun st2 comm =>
        (st2.1 ++ comm.map (fun x => (x, st2.2)), st2.2 + 1)) (m, i) =
      (m ++ assignFrom i comms, i + comms.length) := by
  induction comms with
  | nil => intro m i; simp [assignFrom]
  | cons b bs ih =>
    intro m i
    show bs.foldl _ (m ++ b.map (fun x => (x, i)), i + 1) = _
    rw [ih, List.append_assoc]
    simp only [assignFrom, List.length_cons, Prod.mk.injEq, true_and]
    omega

/-- One `detectStep` appends the id assignment of the component's blocks
and advances the counter by the number of blocks. -/
theorem detectStep_eq (oracle : Oracle) (G : Graph) (m : List (String × Nat))
    (i : Nat) (comp : List String) :
    detectStep oracle G (m, i) comp =
      (m ++ assignFrom i (blockOf oracle G comp),
        i + (blockOf oracle G comp).length) := by
  unfold detectStep blockOf
  by_cases h : comp.length < 3
  · rw [if_pos h, if_pos h]
    simp [assignFrom]
  · rw [if_neg h, if_neg h]
    cases hx : oracle (subgraphOf G comp) with
    | ok comms => exact foldl_assign comms m i
    | error e => simp [assignFrom]

theorem assignFrom_append (B : List (List String)) :
    ∀ (i : Nat) (R : List (List String)),
      assignFrom i (B ++ R) = assignFrom i B ++ assignFrom (i + B.length) R := by
  induction B with
  | nil => intro i R; simp [assignFrom]
  | cons b bs ih =>
    intro i R
    show b.map (fun x => (x, i)) ++ assignFrom (i + 1) (bs ++ R) = _
    rw [ih (i + 1) R]
    simp only [assignFrom, List.length_cons, List.append_assoc]
    have h : i + 1 + bs.length = i + (bs.length + 1) := by omega
    rw [h]

theorem detect_foldl_eq (oracle : Oracle) (G : Graph) :
    ∀ (comps : List (List String)) (m : List (String × Nat)) (i : Nat),
      comps.foldl (detectStep oracle G) (m, i) =
        (m ++ assignFrom i ((comps.map (blockOf oracle G)).flatten),
          i + ((comps.map (blockOf oracle G)).flatten).length) := by
  intro comps
  induction comps with
  | nil => intro m i; simp [assignFrom]
  | cons c cs ih =>
    intro m i
    show cs.foldl (detectStep oracle G) (detectStep oracle G (m, i) c) = _
    rw [detectStep_eq, ih]
    simp only [List.map_cons, List.flatten_cons, assignFrom_append,
      List.append_assoc, List.length_append]
    have h : i + (blockOf oracle G c).length +
        ((cs.map (blockOf oracle G)).flatten).length =
        i + ((blockOf oracle G c).length +
          ((cs.map (blockOf oracle G)).flatten).length) := by omega
    rw [h]

/-- On a nonempty graph the detector's mapping is the sequential id
assignment of its block list. -/
theorem detect_communities_eq (oracle : Oracle) (G : Graph)
    (hn : ¬ G.nodes.length = 0) :
    detect_communities oracle G = assignFrom 0 (blocksOf oracle G) := by
  unfold detect_communities blocksOf
  rw [if_neg hn, detect_foldl_eq]
  rfl

theorem detectCount_eq (oracle : Oracle) (G : Graph)
    (hn : ¬ G.nodes.length = 0) :
    detectCount oracle G = (blocksOf oracle G).length := by
  unfold detectCount blocksOf
  rw [if_neg hn, detect_foldl_eq]
  simp

theorem mem_subgraph_nodeKeys (G : Graph) (comp : List String) (x : String) :
    x ∈ (subgraphOf G comp).nodeKeys ↔ x ∈ G.nodeKeys ∧ x ∈ comp := by
  unfold subgraphOf Graph.nodeKeys
  constructor
  · intro hx
    rw [List.mem_map] at hx
    obtain ⟨nd, hnd, rfl⟩ := hx
    rw [List.mem_filter] at hnd
    exact ⟨List.mem_map_of_mem _ hnd.1, by simpa using hnd.2⟩
  · rintro ⟨hx1, hx2⟩
    rw [List.mem_map] at hx1 ⊢
    obtain ⟨nd, hnd, rfl⟩ := hx1
    exact ⟨nd, List.mem_filter.mpr ⟨hnd, by simpa using hx2⟩, rfl⟩

/-- The blocks of one component are nonempty duplicate-free subsets of the
component, pairwise disjoint, and they cover the component. -/
theorem blockOf_wf (oracle : Oracle) (hok : OracleOK oracle) (G : Graph)
    (comp : List String) (hnd : comp.Nodup) (hne : comp ≠ [])
    (hsub : comp ⊆ G.nodeKeys) :
    (∀ b ∈ blockOf oracle G comp, b ≠ [] ∧ b.Nodup ∧ b ⊆ comp) ∧
    (blockOf oracle G comp).Pairwise ListDisj ∧
    (∀ x ∈ comp, ∃ b ∈ blockOf oracle G comp, x ∈ b) := by
  have hsingle : (∀ b ∈ [comp], b ≠ [] ∧ b.Nodup ∧ b ⊆ comp) ∧
      ([comp] : List (List String)).Pairwise ListDisj ∧
      (∀ x ∈ comp, ∃ b ∈ [comp], x ∈ b) := by
    refine ⟨?_, List.pairwise_singleton .., ?_⟩
    · intro b hb
      rw [List.mem_singleton] at hb
      subst hb
      exact ⟨hne, hnd, fun x hx => hx⟩
    · intro x hx
      exact ⟨comp, List.mem_singleton.mpr rfl, hx⟩
  unfold blockOf
  by_cases h : comp.length < 3
  · rw [if_pos h]
    exact hsingle
  · rw [if_neg h]
    cases hx : oracle (subgraphOf G comp) with
    | error e => exact hsingle
    | ok comms =>
      obtain ⟨h1, h2, h3⟩ := hok (subgraphOf G comp) comms hx
      refine ⟨?_, h2, ?_⟩
      · intro b hb
        obtain ⟨hbne, hbnd, hbsub⟩ := h1 b hb
        refine ⟨hbne, hbnd, ?_⟩
        intro y hyb
        exact ((mem_subgraph_nodeKeys G comp y).mp (hbsub y hyb)).2
      · intro y hyc
        exact h3 y ((mem_subgraph_nodeKeys G comp y).mpr ⟨hsub hyc, hyc⟩)

theorem flatten_pairwise_disj (f : List String → List (List String)) :
    ∀ comps : List (List String),
      (∀ c ∈ comps, (∀ b ∈ f c, b ⊆ c) ∧ (f c).Pairwise ListDisj) →
      comps.Pairwise ListDisj →
      ((comps.map f).flatten).Pairwise ListDisj := by
  intro comps
  induction comps with
  | nil => intro _ _; simp
  | cons c cs ih =>
    intro hin hdisj
    rw [List.map_cons, List.flatten_cons, List.pairwise_append]
    obtain ⟨hd, htl⟩ := List.pairwise_cons.mp hdisj
    refine ⟨(hin c (List.mem_cons_self c cs)).2,
      ih (fun d hd2 => hin d (List.mem_cons_of_mem c hd2)) htl, ?_⟩
    intro b hb b' hb'
    rw [List.mem_flatten] at hb'
    obtain ⟨bs, hbs, hb'bs⟩ := hb'
    rw [List.mem_map] at hbs
    obtain ⟨d, hdc, rfl⟩ := hbs
    intro x hxb hxb'
    exact hd d hdc x ((hin c (List.mem_cons_self c cs)).1 b hb hxb)
      ((hin d (List.mem_cons_of_mem c hdc)).1 b' hb'bs hxb')

/-- The full block list of a run: nonempty duplicate-free pairwise-disjoint
subsets of the node keys that cover every node key. -/
theorem blocksOf_wf (oracle : Oracle) (hok : OracleOK oracle) (G : Graph)
    (hkeys : G.nodeKeys.Nodup) :
    (∀ b ∈ blocksOf oracle G, b ≠ [] ∧ b.Nodup ∧ b ⊆ G.nodeKeys) ∧
    (blocksOf oracle G).Pairwise ListDisj ∧
    (∀ x ∈ G.nodeKeys, ∃ b ∈ blocksOf oracle G, x ∈ b) := by
  refine ⟨?_, ?_, ?_⟩
  · intro b hb
    unfold blocksOf at hb
    rw [List.mem_flatten] at hb
    obtain ⟨bs, hbs, hbbs⟩ := hb
    rw [List.mem_map] at hbs
    obtain ⟨c, hc, rfl⟩ := hbs
    obtain ⟨hcnd, hcsub, hcne⟩ := connectedComponents_wf G hkeys c hc
    obtain ⟨hbne, hbnd, hbsub⟩ :=
      (blockOf_wf oracle hok G c hcnd hcne hcsub).1 b hbbs
    exact ⟨hbne, hbnd, fun x hx => hcsub (hbsub hx)⟩
  · unfold blocksOf
    refine flatten_pairwise_disj (blockOf oracle G) (connectedComponents G)
      ?_ (connectedComponents_disjoint G)
    intro c hc
    obtain ⟨hcnd, hcsub, hcne⟩ := connectedComponents_wf G hkeys c hc
    have hbw := blockOf_wf oracle hok G c hcnd hcne hcsub
    exact ⟨fun b hb => (hbw.1 b hb).2.2, hbw.2.1⟩
  · intro x hx
    obtain ⟨c, hc, hxc⟩ := connectedComponents_cover G x hx
    obtain ⟨hcnd, hcsub, hcne⟩ := connectedComponents_wf G hkeys c hc
    obtain ⟨b, hb, hxb⟩ :=
      (blockOf_wf oracle hok G c hcnd hcne hcsub).2.2 x hxc
    refine ⟨b, ?_, hxb⟩
    unfold blocksOf
    rw [List.mem_flatten]
    exact ⟨blockOf oracle G c, List.mem_map_of_mem _ hc, hb⟩

theorem flatten_nodup :
    ∀ F : List (List String), (∀ b ∈ F, b.Nodup) → F.Pairwise ListDisj →
      F.flatten.Nodup := by
  intro F
  induction F with
  | nil => intro _ _; simp
  | cons b bs ih =>
    intro h1 h2
    rw [List.flatten_cons, List.nodup_append]
    obtain ⟨hd, htl⟩ := List.pairwise_cons.mp h2
    refine ⟨h1 b (List.mem_cons_self b bs),
      ih (fun c hc => h1 c (List.mem_cons_of_mem b hc)) htl, ?_⟩
    intro x hxb hxf
    rw [List.mem_flatten] at hxf
    obtain ⟨c, hc, hxc⟩ := hxf
    exact hd c hc x hxb hxc

/-- The keys of the id assignment, in order, are the flattened blocks. -/
theorem assignFrom_map_fst (bs : List (List String)) :
    ∀ i : Nat, (assignFrom i bs).map Prod.fst = bs.flatten := by
  induction bs with
  | nil => intro i; rfl
  | cons b bs ih =>
    intro i
    show (b.map (fun x => (x, i)) ++ assignFrom (i + 1) bs).map Prod.fst =
      (b :: bs).flatten
    rw [List.map_append, List.map_map, ih, List.flatten_cons]
    congr 1
    exact List.map_id b

/-- Membership in the sequential id assignment: the entry's id determines
the block containing its key. -/
theorem mem_assignFrom (bs : List (List String)) :
    ∀ (i : Nat) (p : String × Nat),
      p ∈ assignFrom i bs ↔
        ∃ j : Nat, ∃ hj : j < bs.length,
          i + j = p.2 ∧ p.1 ∈ bs.get ⟨j, hj⟩ := by
  induction bs with
  | nil =>
    intro i p
    constructor
    · intro hp; cases hp
    · rintro ⟨j, hj, _⟩; exact absurd hj (Nat.not_lt_zero j)
  | cons b bs ih =>
    intro i p
    constructor
    · intro hp
      rcases List.mem_append.mp hp with hp | hp
      · rw [List.mem_map] at hp
        obtain ⟨x, hx, rfl⟩ := hp
        exact ⟨0, Nat.succ_pos bs.length, rfl, hx⟩
      · obtain ⟨j, hj, hij, hmem⟩ := (ih (i + 1) p).mp hp
        refine ⟨j + 1, Nat.succ_lt_succ hj, ?_, hmem⟩
        omega
    · rintro ⟨j, hj, hij, hmem⟩
      cases j with
      | zero =>
        apply List.mem_append_left
        rw [List.mem_map]
        refine ⟨p.1, hmem, ?_⟩
        have hpi : p.2 = i := by omega
        rw [← hpi]
      | succ j =>
        apply List.mem_append_right
        apply (ih (i + 1) p).mpr
        exact ⟨j, Nat.lt_of_succ_lt_succ hj, by omega, hmem⟩

/-- Python-dict semantics on a duplicate-free association list: lookup of a
bound key returns its (unique) binding. -/
theorem dictLookup_eq_of_mem :
    ∀ m : List (String × Nat), (m.map Prod.fst).Nodup →
      ∀ p ∈ m, dictLookup m p.1 = some p.2 := by
  intro m
  induction m with
  | nil => intro _ p hp; cases hp
  | cons q m ih =>
    intro hnd p hp
    rw [List.map_cons, List.nodup_cons] at hnd
    unfold dictLookup
    rw [List.reverse_cons, List.find?_append]
    rcases List.mem_cons.mp hp with hq | hp2
    · have hnone : m.reverse.find? (fun r => r.1 == p.1) = none := by
        rw [List.find?_eq_none]
        intro r hr heq
        rw [beq_iff_eq] at heq
        apply hnd.1
        have hrq : r.1 = q.1 := by rw [heq, hq]
        rw [← hrq]
        exact List.mem_map_of_mem _ (List.mem_reverse.mp hr)
      rw [hnone, hq]
      simp
    · have hlook := ih hnd.2 p hp2
      unfold dictLookup at hlook
      cases hfind : m.reverse.find? (fun r => r.1 == p.1) with
      | none => rw [hfind] at hlook; simp at hlook
      | some r =>
        rw [hfind] at hlook
        simpa using hlook

/-- A successful dict lookup comes from an actual binding in the list. -/
theorem dictLookup_mem (m : List (String × Nat)) (k : String) (i : Nat)
    (h : dictLookup m k = some i) : (k, i) ∈ m := by
  unfold dictLookup at h
  cases hfind : m.reverse.find? (fun p => p.1 == k) with
  | none => rw [hfind] at h; simp at h
  | some r =>
    rw [hfind] at h
    have hr : r ∈ m.reverse := List.mem_of_find?_eq_some hfind
    have hrk := List.find?_some hfind
    rw [List.mem_reverse] at hr
    obtain ⟨a, b⟩ := r
    have h1 : a = k := by simpa using hrk
    have h2 : b = i := by simpa using h
    subst h1
    subst h2
    exact hr

theorem detect_fst_nodup (oracle : Oracle) (hok : OracleOK oracle) (G : Graph)
    (hkeys : G.nodeKeys.Nodup) :
    ((detect_communities oracle G).map Prod.fst).Nodup := by
  by_cases hn : G.nodes.length = 0
  · unfold detect_communities
    rw [if_pos hn]
    simp
  · rw [detect_communities_eq oracle G hn, assignFrom_map_fst]
    obtain ⟨h1, h2, _⟩ := blocksOf_wf oracle hok G hkeys
    exact flatten_nodup (blocksOf oracle G) (fun b hb => (h1 b hb).2.1) h2

theorem length_eq_of_nodup_of_mem_iff (l₁ l₂ : List String)
    (h₁ : l₁.Nodup) (h₂ : l₂.Nodup) (h : ∀ x, x ∈ l₁ ↔ x ∈ l₂) :
    l₁.length = l₂.length := by
  rw [← List.toFinset_card_of_nodup h₁, ← List.toFinset_card_of_nodup h₂]
  congr 1
  ext x
  rw [List.mem_toFinset, List.mem_toFinset]
  exact h x

/-- Summing the per-id entry counts over `range k` recovers the list length
when every entry's id is below `k`. -/
theorem sum_range_filter_eq_length (k : Nat) :
    ∀ m : List (String × Nat), (∀ p ∈ m, p.2 < k) →
      (Finset.range k).sum
        (fun i => (m.filter (fun p => p.2 == i)).length) = m.length := by
  intro m
  induction m with
  | nil => intro _; simp
  | cons p m ih =>
    intro h
    have hp : p.2 < k := h p (List.mem_cons_self p m)
    have hm : ∀ q ∈ m, q.2 < k := fun q hq => h q (List.mem_cons_of_mem p hq)
    have hfil : ∀ i : Nat, (((p :: m).filter (fun q => q.2 == i)).length) =
        (if p.2 = i then 1 else 0) +
          (m.filter (fun q => q.2 == i)).length := by
      intro i
      rw [List.filter_cons]
      by_cases hpi : p.2 = i
      · rw [if_pos (by simpa using hpi), if_pos hpi, List.length_cons]
        omega
      · rw [if_neg (by simpa using hpi), if_neg hpi]
        omega
    rw [Finset.sum_congr rfl (fun i _ => hfil i), Finset.sum_add_distrib,
      ih hm]
    have hone : (Finset.range k).sum
        (fun i => if p.2 = i then 1 else 0) = 1 := by
      rw [Finset.sum_ite_eq]
      rw [if_pos (Finset.mem_range.mpr hp)]
    rw [hone, List.length_cons]
    omega

/-! ## Claim C1 -/

theorem qsum_map_add {α : Type} (f g : α → ℚ) (l : List α) :
    (l.map (fun x => f x + g x)).sum = (l.map f).sum + (l.map g).sum := by
  induction l with
  | nil => simp
  | cons x xs ih =>
    simp only [List.map_cons, List.sum_cons, ih]
    ring

/-- For a reversal-invariant cost, the shortest `t → s` paths are exactly the
reversals of the shortest `s → t` paths. -/
theorem shortestPaths_reverse (G : Graph) (cost : List String → Nat)
    (hcost : ∀ p : List String, cost p.reverse = cost p) (s t : String) :
    shortestPaths G cost t s =
      (shortestPaths G cost s t).image List.reverse := by
  ext p
  rw [Finset.mem_image]
  unfold shortestPaths
  constructor
  · intro hp
    rw [Finset.mem_filter] at hp
    obtain ⟨hp1, hp2⟩ := hp
    refine ⟨p.reverse, ?_, List.reverse_reverse p⟩
    rw [Finset.mem_filter]
    refine ⟨reverse_mem_pathsBetween G t s p hp1, ?_⟩
    intro q hq
    rw [hcost p]
    have h := hp2 q.reverse (reverse_mem_pathsBetween G s t q hq)
    rw [hcost q] at h
    exact h
  · rintro ⟨a, ha, rfl⟩
    rw [Finset.mem_filter] at ha ⊢
    obtain ⟨ha1, ha2⟩ := ha
    refine ⟨reverse_mem_pathsBetween G s t a ha1, ?_⟩
    intro q hq
    rw [hcost a]
    have h := ha2 q.reverse (reverse_mem_pathsBetween G t s q hq)
    rw [hcost q] at h
    exact h

theorem sigmaAll_symm (G : Graph) (cost : List String → Nat)
    (hcost : ∀ p : List String, cost p.reverse = cost p) (s t : String) :
    sigmaAll G cost t s = sigmaAll G cost s t := by
  unfold sigmaAll
  rw [shortestPaths_reverse G cost hcost s t]
  exact Finset.card_image_of_injective _ reverse_injective_lists

theorem sigmaThru_symm (G : Graph) (cost : List String → Nat)
    (hcost : ∀ p : List String, cost p.reverse = cost p) (s t v : String) :
    sigmaThru G cost t s v = sigmaThru G cost s t v := by
  unfold sigmaThru
  have h : (shortestPaths G cost t s).filter (fun p => v ∈ p) =
      ((shortestPaths G cost s t).filter (fun p => v ∈ p)).image
        List.reverse := by
    rw [shortestPaths_reverse G cost hcost s t]
    ext p
    simp only [Finset.mem_filter, Finset.mem_image]
    constructor
    · rintro ⟨⟨a, ha, rfl⟩, hv⟩
      exact ⟨a, ⟨ha, by simpa using hv⟩, rfl⟩
    · rintro ⟨a, ⟨ha, hv⟩, rfl⟩
      exact ⟨⟨a, ha, rfl⟩, by simpa using hv⟩
  rw [h, Finset.card_image_of_injective _ reverse_injective_lists]

/-- Pair dependency is symmetric in `s` and `t` for a reversal-invariant
cost (in particular for both hop count and total edge weight). -/
theorem pairDep_symm (G : Graph) (cost : List String → Nat)
    (hcost : ∀ p : List String, cost p.reverse = cost p) (s t v : String) :
    pairDep G cost t s v = pairDep G cost s t v := by
  unfold pairDep
  rw [sigmaAll_symm G cost hcost s t, sigmaThru_symm G cost hcost s t v]

/-- A double sum over a list splits into the diagonal plus the sum over
position-ordered pairs of the two mirrored terms. -/
theorem sum_sq_eq_diag_add_pairs (g : String → String → ℚ) :
    ∀ l : List String,
      (l.map (fun s => (l.map (fun t => g s t)).sum)).sum =
        (l.map (fun s => g s s)).sum +
          ((pairsOf l).map (fun st => g st.1 st.2 + g st.2 st.1)).sum
  | [] => by simp [pairsOf]
  | x :: xs => by
    have ih := sum_sq_eq_diag_add_pairs g xs
    have hpair : ((xs.map (fun y => (x, y))).map
        (fun st : String × String => g st.1 st.2 + g st.2 st.1)) =
        xs.map (fun y => g x y + g y x) := by
      rw [List.map_map]
      rfl
    simp only [pairsOf, List.map_cons, List.sum_cons, List.map_append,
      List.sum_append]
    rw [hpair, qsum_map_add (fun y => g x y) (fun y => g y x) xs,
      qsum_map_add (fun s => g s x)
        (fun s => (xs.map (fun t => g s t)).sum) xs, ih]
    ring

/-- The ordered-pair Brandes accumulation equals twice the unordered-pair
spec sum, for a reversal-invariant cost and duplicate-free node keys. -/
theorem rawBetweenness_eq_pairs (G : Graph) (cost : List String → Nat)
    (hcost : ∀ p : List String, cost p.reverse = cost p)
    (hnd : G.nodeKeys.Nodup) (v : String) :
    rawBetweenness G cost v =
      2 * ((pairsOf G.nodeKeys).map (fun st =>
        if st.1 ≠ v ∧ st.2 ≠ v then pairDep G cost st.1 st.2 v else 0)).sum := by
  unfold rawBetweenness
  rw [sum_sq_eq_diag_add_pairs
    (fun s t => if s ≠ t ∧ s ≠ v ∧ t ≠ v then pairDep G cost s t v else 0)
    G.nodeKeys]
  have hdiag : (G.nodeKeys.map (fun s =>
      if s ≠ s ∧ s ≠ v ∧ s ≠ v then pairDep G cost s s v else 0)).sum = 0 := by
    apply List.sum_eq_zero
    intro q hq
    rw [List.mem_map] at hq
    obtain ⟨a, _, rfl⟩ := hq
    rw [if_neg]
    intro hcon
    exact hcon.1 rfl
  rw [hdiag, zero_add]
  have hmap : ((pairsOf G.nodeKeys).map (fun st =>
      (if st.1 ≠ st.2 ∧ st.1 ≠ v ∧ st.2 ≠ v then
        pairDep G cost st.1 st.2 v else 0) +
      (if st.2 ≠ st.1 ∧ st.2 ≠ v ∧ st.1 ≠ v then
        pairDep G cost st.2 st.1 v else 0))) =
      (pairsOf G.nodeKeys).map (fun st =>
        (if st.1 ≠ v ∧ st.2 ≠ v then pairDep G cost st.1 st.2 v else 0) +
        (if st.1 ≠ v ∧ st.2 ≠ v then pairDep G cost st.1 st.2 v else 0)) := by
    apply List.map_congr_left
    intro st hst
    have hne : st.1 ≠ st.2 := pairsOf_ne G.nodeKeys hnd st hst
    by_cases hv : st.1 ≠ v ∧ st.2 ≠ v
    · rw [if_pos ⟨hne, hv⟩, if_pos ⟨hne.symm, hv.2, hv.1⟩, if_pos hv,
        pairDep_symm G cost hcost st.1 st.2 v]
    · rw [if_neg (fun hcon => hv ⟨hcon.2.1, hcon.2.2⟩),
        if_neg (fun hcon => hv ⟨hcon.2.2, hcon.2.1⟩), if_neg hv]
  rw [hmap, qsum_map_add
    (fun st : String × String =>
      if st.1 ≠ v ∧ st.2 ≠ v then pairDep G cost st.1 st.2 v else 0)
    (fun st : String × String =>
      if st.1 ≠ v ∧ st.2 ≠ v then pairDep G cost st.1 st.2 v else 0)
    (pairsOf G.nodeKeys)]
  ring

/-- For more than two distinct-keyed nodes, the code's betweenness (weight
as Dijkstra distance, ordered-pair accumulation, `1/((n-1)(n-2))`
rescaling) equals the spec formula with weighted shortest paths and the
`2/((n-1)(n-2))` unordered-pair normalization. -/
theorem betweenness_eq_specW (G : Graph) (hnd : G.nodeKeys.Nodup)
    (hn : 2 < G.nodes.length) (v : String) :
    betweenness_centrality G v = specBetweennessW G v := by
  simp only [betweenness_centrality, specBetweennessW, specBetweenness]
  rw [if_neg (by omega)]
  rw [rawBetweenness_eq_pairs G (weightCost G) (weightCost_reverse G) hnd v]
  rw [div_mul_eq_mul_div]

/-- C1, counterexample: in the triangle with edge weights s–t: 3, s–v: 1,
v–t: 1, the code (networkx `betweenness_centrality(G, weight="weight")`,
which treats weight as a Dijkstra distance cost) gives node v betweenness
1, while the claim's hop-count-only formula gives 0: by hop count the
unique shortest s–t path is the direct edge, which avoids v. -/
theorem C1_counterexample :
    betweenness_centrality triG "v" = 1 ∧ specBetweennessHop triG "v" = 0 ∧
      (1 : ℚ) ≠ 0 := by
  have hkeys : triG.nodeKeys = ["s", "v", "t"] := by decide
  refine ⟨?_, ?_, by norm_num⟩
  · have hd1 : pairDep triG (weightCost triG) "s" "t" "v" = 1 := by
      unfold pairDep
      have hsa : sigmaAll triG (weightCost triG) "s" "t" = 1 := by decide
      have hst : sigmaThru triG (weightCost triG) "s" "t" "v" = 1 := by decide
      rw [hsa, hst]
      norm_num
    have hd2 : pairDep triG (weightCost triG) "t" "s" "v" = 1 := by
      unfold pairDep
      have hsa : sigmaAll triG (weightCost triG) "t" "s" = 1 := by decide
      have hst : sigmaThru triG (weightCost triG) "t" "s" "v" = 1 := by decide
      rw [hsa, hst]
      norm_num
    have hraw : rawBetweenness triG (weightCost triG) "v" = 2 := by
      unfold rawBetweenness
      rw [hkeys]
      simp only [List.map_cons, List.map_nil, List.sum_cons, List.sum_nil]
      simp +decide only [hd1, hd2]
      norm_num
    simp only [betweenness_centrality]
    have hlen : triG.nodes.length = 3 := by decide
    rw [hlen]
    rw [if_neg (by norm_num)]
    rw [hraw]
    norm_num
  · have hd : pairDep triG hopCost "s" "t" "v" = 0 := by
      unfold pairDep
      have hsa : sigmaAll triG hopCost "s" "t" = 1 := by decide
      have hst : sigmaThru triG hopCost "s" "t" "v" = 0 := by decide
      rw [hsa, hst]
      norm_num
    have hpairs : pairsOf (["s", "v", "t"] : List String) =
        [("s", "v"), ("s", "t"), ("v", "t")] := by decide
    have hsum : ((pairsOf (["s", "v", "t"] : List String)).map (fun st =>
        if st.1 ≠ "v" ∧ st.2 ≠ "v" then
          pairDep triG hopCost st.1 st.2 "v" else 0)).sum = 0 := by
      rw [hpairs]
      simp only [List.map_cons, List.map_nil, List.sum_cons, List.sum_nil]
      simp +decide only [hd]
      norm_num
    simp only [specBetweennessHop, specBetweenness]
    rw [hkeys, hsum, mul_zero]

/-- C1, amended: on any graph with duplicate-free node keys and more than
two nodes, the betweenness centrality computed by `compute_centralities`
for each node equals the spec's sum over unordered pairs of the fraction
of shortest paths through the node normalized by `2/((n-1)(n-2))` — but
with shortest paths determined by total edge weight as a distance cost
(`weight="weight"`), not by hop count. -/
theorem C1_amended (cbrt : ℚ → ℚ) (G : Graph) (hnd : G.nodeKeys.Nodup)
    (hn : 2 < G.nodes.length) :
    (∀ v : String, betweenness_centrality G v = specBetweennessW G v) ∧
    (∀ p ∈ compute_centralities cbrt G,
      p.2.betweenness_centrality = round4 (specBetweennessW G p.1)) := by
  have key := betweenness_eq_specW G hnd hn
  refine ⟨key, ?_⟩
  intro p hp
  unfold compute_centralities at hp
  rw [if_neg (by omega)] at hp
  rw [List.mem_map] at hp
  obtain ⟨v, hv, rfl⟩ := hp
  show round4 (betweenness_centrality G v) = round4 (specBetweennessW G v)
  rw [key v]

/-- C1, witness: the amended statement applied to the three-node triangle,
whose key distinctness and node count are checked concretely. -/
theorem C1_witness :
    triG.nodeKeys.Nodup ∧ 2 < triG.nodes.length ∧
    ∀ v : String, betweenness_centrality triG v = specBetweennessW triG v :=
  ⟨by decide, by decide, (C1_amended id triG (by decide) (by decide)).1⟩

/-! ## Claim C7 -/

/-- C7: `detect_communities` never raises — it is a total function of the
oracle outcome, the `try/except` of the source being the error branch of
`detectStep` — an empty graph yields an empty mapping, and a connected
component that is small (fewer than 3 nodes) or on which the grouping
oracle fails is assigned one single fresh community id shared by exactly
its members, while every other node still receives a (different) id:
detection continues over the remaining components. -/
theorem C7_theorem (oracle : Oracle) (hok : OracleOK oracle) (G : Graph)
    (hkeys : G.nodeKeys.Nodup) :
    (G.nodes.length = 0 → detect_communities oracle G = []) ∧
    (∀ comp ∈ connectedComponents G,
      (comp.length < 3 ∨ oracle (subgraphOf G comp) = Except.error ()) →
      ∃ i : Nat,
        (∀ x ∈ comp, dictLookup (detect_communities oracle G) x = some i) ∧
        (∀ y ∈ G.nodeKeys, y ∉ comp → ∃ j : Nat, j ≠ i ∧
          dictLookup (detect_communities oracle G) y = some j)) := by
  constructor
  · intro h0
    unfold detect_communities
    rw [if_pos h0]
  · intro comp hcomp hsmall
    obtain ⟨hcnd, hcsub, hcne⟩ := connectedComponents_wf G hkeys comp hcomp
    have hn : ¬ G.nodes.length = 0 := by
      intro h0
      have hkeys0 : G.nodeKeys = [] := by
        unfold Graph.nodeKeys
        rw [List.length_eq_zero.mp h0]
        rfl
      cases comp with
      | nil => exact hcne rfl
      | cons a as =>
        have hmem := hcsub (List.mem_cons_self a as)
        rw [hkeys0] at hmem
        cases hmem
    have hblock : blockOf oracle G comp = [comp] := by
      unfold blockOf
      rcases hsmall with h | h
      · rw [if_pos h]
      · by_cases h3 : comp.length < 3
        · rw [if_pos h3]
        · rw [if_neg h3, h]
    have hmemF : comp ∈ blocksOf oracle G := by
      unfold blocksOf
      rw [List.mem_flatten]
      refine ⟨blockOf oracle G comp, List.mem_map_of_mem _ hcomp, ?_⟩
      rw [hblock]
      exact List.mem_singleton.mpr rfl
    obtain ⟨n, hget⟩ := List.mem_iff_get.mp hmemF
    have hfstnd : ((assignFrom 0 (blocksOf oracle G)).map Prod.fst).Nodup := by
      have hn2 := detect_fst_nodup oracle hok G hkeys
      rw [detect_communities_eq oracle G hn] at hn2
      exact hn2
    refine ⟨n.1, ?_, ?_⟩
    · intro x hx
      rw [detect_communities_eq oracle G hn]
      have hmem : (x, n.1) ∈ assignFrom 0 (blocksOf oracle G) := by
        rw [mem_assignFrom]
        refine ⟨n.1, n.2, by simp, ?_⟩
        rw [show (blocksOf oracle G).get ⟨n.1, n.2⟩ = comp from hget]
        exact hx
      exact dictLookup_eq_of_mem _ hfstnd (x, n.1) hmem
    · intro y hy hynot
      obtain ⟨b, hb, hyb⟩ := (blocksOf_wf oracle hok G hkeys).2.2 y hy
      obtain ⟨nb, hgetb⟩ := List.mem_iff_get.mp hb
      refine ⟨nb.1, ?_, ?_⟩
      · intro hji
        apply hynot
        rw [← show (blocksOf oracle G).get ⟨n.1, n.2⟩ = comp from hget]
        rw [← hgetb] at hyb
        have hfin : nb = (⟨n.1, n.2⟩ : Fin (blocksOf oracle G).length) :=
          Fin.ext hji
        rw [← hfin]
        exact hyb
      · rw [detect_communities_eq oracle G hn]
        have hmem : (y, nb.1) ∈ assignFrom 0 (blocksOf oracle G) := by
          rw [mem_assignFrom]
          refine ⟨nb.1, nb.2, by simp, ?_⟩
          rw [show (blocksOf oracle G).get ⟨nb.1, nb.2⟩ = b from hgetb]
          exact hyb
        exact dictLookup_eq_of_mem _ hfstnd (y, nb.1) hmem

/-- C7, witness: the statement applied to the scenario graph with an
always-failing oracle; the premises are checked concretely and the
three-node component falls into the fail-soft branch. -/
theorem C7_witness :
    OracleOK errOracle ∧ scenarioG.nodeKeys.Nodup ∧
    (["A", "B", "C"] ∈ connectedComponents scenarioG ∧
      errOracle (subgraphOf scenarioG ["A", "B", "C"]) = Except.error ()) ∧
    (∃ i : Nat,
      (∀ x ∈ (["A", "B", "C"] : List String),
        dictLookup (detect_communities errOracle scenarioG) x = some i) ∧
      (∀ y ∈ scenarioG.nodeKeys, y ∉ (["A", "B", "C"] : List String) →
        ∃ j : Nat, j ≠ i ∧
          dictLookup (detect_communities errOracle scenarioG) y = some j)) :=
  have hok : OracleOK errOracle := fun _ _ h => Except.noConfusion h
  ⟨hok, by decide, ⟨by decide, rfl⟩,
    (C7_theorem errOracle hok scenarioG (by decide)).2 ["A", "B", "C"]
      (by decide) (Or.inr rfl)⟩

/-! ## Claim C8 -/

/-- C8: the mapping returned by `detect_communities` partitions the node
set: a node has a community id exactly when it is a node of the graph,
every node appears exactly once in the mapping (duplicate-free keys), and
the community sizes summed over all ids equal the node count. -/
theorem C8_theorem (oracle : Oracle) (hok : OracleOK oracle) (G : Graph)
    (hkeys : G.nodeKeys.Nodup) :
    (∀ x : String,
      (∃ i, dictLookup (detect_communities oracle G) x = some i) ↔
        x ∈ G.nodeKeys) ∧
    ((detect_communities oracle G).map Prod.fst).Nodup ∧
    (Finset.range (detectCount oracle G)).sum
      (fun i => ((detect_communities oracle G).filter
        (fun p => p.2 == i)).length) = G.nodes.length := by
  by_cases hn : G.nodes.length = 0
  · have hd : detect_communities oracle G = [] := by
      unfold detect_communities
      rw [if_pos hn]
    have hc : detectCount oracle G = 0 := by
      unfold detectCount
      rw [if_pos hn]
    have hk : G.nodeKeys = [] := by
      unfold Graph.nodeKeys
      rw [List.length_eq_zero.mp hn]
      rfl
    rw [hd, hc, hk, hn]
    refine ⟨?_, by simp, by simp⟩
    intro x
    simp [dictLookup]
  · have heq := detect_communities_eq oracle G hn
    have hcnt := detectCount_eq oracle G hn
    obtain ⟨h1, h2, h3⟩ := blocksOf_wf oracle hok G hkeys
    have hfstnd : ((detect_communities oracle G).map Prod.fst).Nodup :=
      detect_fst_nodup oracle hok G hkeys
    refine ⟨?_, hfstnd, ?_⟩
    · intro x
      constructor
      · rintro ⟨i, hi⟩
        have hmem := dictLookup_mem _ x i hi
        rw [heq, mem_assignFrom] at hmem
        obtain ⟨j, hj, _, hxj⟩ := hmem
        exact (h1 _ (List.get_mem _ j hj)).2.2 hxj
      · intro hx
        obtain ⟨b, hb, hxb⟩ := h3 x hx
        obtain ⟨nb, hgetb⟩ := List.mem_iff_get.mp hb
        refine ⟨nb.1, ?_⟩
        rw [heq]
        have hfst2 : ((assignFrom 0 (blocksOf oracle G)).map
            Prod.fst).Nodup := by
          rw [← heq]
          exact hfstnd
        have hmem : (x, nb.1) ∈ assignFrom 0 (blocksOf oracle G) := by
          rw [mem_assignFrom]
          refine ⟨nb.1, nb.2, by simp, ?_⟩
          rw [show (blocksOf oracle G).get ⟨nb.1, nb.2⟩ = b from hgetb]
          exact hxb
        exact dictLookup_eq_of_mem _ hfst2 (x, nb.1) hmem
    · have hlt : ∀ p ∈ detect_communities oracle G,
          p.2 < detectCount oracle G := by
        intro p hp
        rw [heq, mem_assignFrom] at hp
        obtain ⟨j, hj, hij, _⟩ := hp
        rw [hcnt]
        omega
      rw [sum_range_filter_eq_length (detectCount oracle G)
        (detect_communities oracle G) hlt]
      rw [show (detect_communities oracle G).length =
        ((detect_communities oracle G).map Prod.fst).length from
          (List.length_map _ _).symm]
      have hflat : (detect_communities oracle G).map Prod.fst =
          (blocksOf oracle G).flatten := by
        rw [heq, assignFrom_map_fst]
      rw [hflat]
      have hfl_nd : (blocksOf oracle G).flatten.Nodup := by
        rw [← hflat]
        exact hfstnd
      have hmemiff : ∀ x, x ∈ (blocksOf oracle G).flatten ↔
          x ∈ G.nodeKeys := by
        intro x
        rw [List.mem_flatten]
        constructor
        · rintro ⟨b, hb, hxb⟩
          exact (h1 b hb).2.2 hxb
        · intro hx
          exact h3 x hx
      rw [length_eq_of_nodup_of_mem_iff _ _ hfl_nd hkeys hmemiff]
      unfold Graph.nodeKeys
      rw [List.length_map]

/-- C8, witness: the size-sum clause of the statement applied to the
scenario graph with an always-failing oracle. -/
theorem C8_witness :
    OracleOK errOracle ∧ scenarioG.nodeKeys.Nodup ∧
    (Finset.range (detectCount errOracle scenarioG)).sum
      (fun i => ((detect_communities errOracle scenarioG).filter
        (fun p => p.2 == i)).length) = scenarioG.nodes.length :=
  have hok : OracleOK errOracle := fun _ _ h => Except.noConfusion h
  ⟨hok, by decide, (C8_theorem errOracle hok scenarioG (by decide)).2.2⟩

/-! ## Claim C10 -/

/-- C10: the set of community ids occurring in the mapping of a single
`detect_communities` call is exactly the contiguous range
`{0, …, k − 1}` where `k` is the final value of the id counter: ids start
at 0, each new community advances the counter by 1, with no gaps and no
reuse. -/
theorem C10_theorem (oracle : Oracle) (hok : OracleOK oracle) (G : Graph)
    (hkeys : G.nodeKeys.Nodup) :
    ((detect_communities oracle G).map Prod.snd).toFinset =
      Finset.range (detectCount oracle G) := by
  by_cases hn : G.nodes.length = 0
  · unfold detect_communities detectCount
    rw [if_pos hn, if_pos hn]
    rfl
  · have heq := detect_communities_eq oracle G hn
    have hcnt := detectCount_eq oracle G hn
    obtain ⟨h1, _, _⟩ := blocksOf_wf oracle hok G hkeys
    ext i
    rw [List.mem_toFinset, Finset.mem_range, List.mem_map, hcnt]
    constructor
    · rintro ⟨p, hp, rfl⟩
      rw [heq, mem_assignFrom] at hp
      obtain ⟨j, hj, hij, _⟩ := hp
      omega
    · intro hi
      obtain ⟨hbne, _, _⟩ := h1 _ (List.get_mem _ i hi)
      cases hb : (blocksOf oracle G).get ⟨i, hi⟩ with
      | nil => exact absurd hb hbne
      | cons a as =>
        refine ⟨(a, i), ?_, rfl⟩
        rw [heq, mem_assignFrom]
        refine ⟨i, hi, by simp, ?_⟩
        rw [hb]
        exact List.mem_cons_self a as

/-- C10, witness: the statement applied to the scenario graph with an
always-failing oracle. -/
theorem C10_witness :
    OracleOK errOracle ∧ scenarioG.nodeKeys.Nodup ∧
    ((detect_communities errOracle scenarioG).map Prod.snd).toFinset =
      Finset.range (detectCount errOracle scenarioG) :=
  have hok : OracleOK errOracle := fun _ _ h => Except.noConfusion h
  ⟨hok, by decide, C10_theorem errOracle hok scenarioG (by decide)⟩

/-! ## Claim C9 -/

/-- C9: neither the detector, nor the centrality engine, nor the rendering
layer's minimum-co-authorship filter mutates the input graph: the
post-state of each explicit-state embedding is the input graph itself
(nodes, edges, stored weights, and node attributes unchanged), and the
rendering filter is a view — the `(source, target, value)` triples it emits
are exactly the stored edges surviving the threshold, with their stored
weights. -/
theorem C9_theorem (oracle : Oracle) (cbrt : ℚ → ℚ) (G : Graph)
    (communities : List (String × Nat)) (min_coauthor : Nat) :
    (detect_communitiesSt oracle G).2 = G ∧
    (compute_centralitiesSt cbrt G).2 = G ∧
    (generate_network_htmlSt G communities min_coauthor).2 = G ∧
    (∀ pr : List RenderNode × List RenderEdge,
      generate_network_html G communities min_coauthor = some pr →
      pr.2.map (fun e => (e.source, e.target, e.value)) =
        G.edges.filter (fun e => min_coauthor ≤ e.2.2)) := by
  refine ⟨rfl, rfl, rfl, ?_⟩
  intro pr hpr
  obtain ⟨ns, es⟩ := pr
  simp only [generate_network_html] at hpr
  by_cases hemp : ((G.edges.filter (fun e => min_coauthor ≤ e.2.2)).flatMap
      (fun e => [e.1, e.2.1])).dedup.isEmpty = true
  · rw [if_pos hemp] at hpr
    cases hpr
  · rw [if_neg hemp] at hpr
    injection hpr with h2
    injection h2 with h3 h4
    show es.map (fun e => (e.source, e.target, e.value)) = _
    rw [← h4, List.map_map]
    exact List.map_id _

/-- C9, witness: on the scenario graph with threshold 2 the render succeeds
and its edge triples are exactly the two stored weight-2 edges, while each
post-state equals the input graph. -/
theorem C9_witness :
    (detect_communitiesSt errOracle scenarioG).2 = scenarioG ∧
    (compute_centralitiesSt id scenarioG).2 = scenarioG ∧
    (generate_network_htmlSt scenarioG
      (detect_communities errOracle scenarioG) 2).2 = scenarioG ∧
    ((generate_network_html scenarioG
        (detect_communities errOracle scenarioG) 2).getD
          ([], [])).2.map (fun e => (e.source, e.target, e.value)) =
      scenarioG.edges.filter (fun e => 2 ≤ e.2.2) := by
  have h := C9_theorem errOracle id scenarioG
    (detect_communities errOracle scenarioG) 2
  exact ⟨h.1, h.2.1, h.2.2.1, h.2.2.2
    ((generate_network_html scenarioG
      (detect_communities errOracle scenarioG) 2).getD ([], [])) rfl⟩

/-! ## Claim C5 -/

/-- C5, counterexample: on a one-node graph, networkx `degree_centrality`
returns 1 for the node (`if len(G) <= 1: return {n: 1 for n in G}`), so the
record stored by `compute_centralities` carries degree centrality 1, not 0
as the claim asserts for graphs with at most one node. -/
theorem C5_counterexample :
    ((lookupCent (compute_centralities id oneG) "A").map
      (fun r => r.degree_centrality)) = some 1 ∧ (1 : ℚ) ≠ 0 := by
  constructor
  · have h1 : degree_centrality oneG "A" = 1 := by
      unfold degree_centrality
      rw [if_pos (by decide : oneG.nodes.length ≤ 1)]
    show some (round4 (degree_centrality oneG "A")) = some 1
    rw [h1, round4_one]
  · norm_num

/-- C5, amended: for every well-formed graph (the spec's Graph model: no
self-loops) with more than one node, the degree and closeness centralities
stored by `compute_centralities` and the density reported by
`get_network_stats` lie in [0,1]; for a graph with at most one node the
stored closeness centrality is 0 and the stored degree centrality is 1
(networkx convention), and for a one-node graph the reported density
is 0. -/
theorem C5_amended (cbrt : ℚ → ℚ) (G : Graph) (hwf : G.WF) :
    (1 < G.nodes.length →
      (∀ p ∈ compute_centralities cbrt G,
        (0 ≤ p.2.degree_centrality ∧ p.2.degree_centrality ≤ 1) ∧
        (0 ≤ p.2.closeness_centrality ∧ p.2.closeness_centrality ≤ 1)) ∧
      (∀ d : ℚ, (get_network_stats G).density = some d → 0 ≤ d ∧ d ≤ 1)) ∧
    (G.nodes.length ≤ 1 →
      (∀ p ∈ compute_centralities cbrt G,
        p.2.degree_centrality = 1 ∧ p.2.closeness_centrality = 0) ∧
      (G.nodes.length = 1 → (get_network_stats G).density = some 0)) := by
  constructor
  · intro hn
    constructor
    · intro p hp
      unfold compute_centralities at hp
      rw [if_neg (by omega)] at hp
      rw [List.mem_map] at hp
      obtain ⟨v, hv, rfl⟩ := hp
      have hdeg := degree_centrality_mem_unit G hwf v hv hn
      have hclo := closeness_mem_unit G hwf v hv
      exact ⟨⟨round4_nonneg hdeg.1, round4_le_one hdeg.2⟩,
        ⟨round4_nonneg hclo.1, round4_le_one hclo.2⟩⟩
    · intro d hd
      unfold get_network_stats at hd
      rw [if_neg (by omega)] at hd
      have hd2 : some (round4 (nxDensity G)) = some d := hd
      have hd3 : round4 (nxDensity G) = d := by
        injection hd2
      have hden := nxDensity_mem_unit G hwf
      rw [← hd3]
      exact ⟨round4_nonneg hden.1, round4_le_one hden.2⟩
  · intro hn
    constructor
    · intro p hp
      unfold compute_centralities at hp
      by_cases h0 : G.nodes.length = 0
      · rw [if_pos h0] at hp
        cases hp
      · rw [if_neg h0] at hp
        rw [List.mem_map] at hp
        obtain ⟨v, hv, rfl⟩ := hp
        have hdeg : degree_centrality G v = 1 := by
          unfold degree_centrality
          rw [if_pos hn]
        have hclo : closeness_centrality G v = 0 := by
          simp only [closeness_centrality]
          rw [if_neg (by omega)]
        constructor
        · show round4 (degree_centrality G v) = 1
          rw [hdeg, round4_one]
        · show round4 (closeness_centrality G v) = 0
          rw [hclo, round4_zero]
    · intro h1
      unfold get_network_stats
      rw [if_neg (by omega)]
      have hden : nxDensity G = 0 := by
        simp only [nxDensity]
        rw [if_pos (Or.inr (by omega))]
      show some (round4 (nxDensity G)) = some 0
      rw [hden, round4_zero]

/-- C5, witness: the amended statement applied to the two-node one-edge
graph, whose well-formedness and node count are checked concretely. -/
theorem C5_witness :
    twoG.WF ∧ 1 < twoG.nodes.length ∧
    (∀ p ∈ compute_centralities id twoG,
      (0 ≤ p.2.degree_centrality ∧ p.2.degree_centrality ≤ 1) ∧
      (0 ≤ p.2.closeness_centrality ∧ p.2.closeness_centrality ≤ 1)) := by
  have hwf : twoG.WF :=
    ⟨by decide, by decide, by decide, by decide, by decide, by decide⟩
  exact ⟨hwf, by decide, ((C5_amended id twoG hwf).1 (by decide)).1⟩

/-! ## Claim C3 -/

/-- C3, counterexample: one article with two distinct author records that
both resolve to key "Smith J" yields paper_count 2 for that node, while the
key appears on exactly 1 distinct article; paper_count is incremented per
author-record occurrence, not per article. -/
theorem C3_counterexample :
    collideG.getPaperCount "Smith J" = 2 ∧
    (([collideArticle] : List Article).countP (fun art =>
      decide ("Smith J" ∈ art.authors.map author_key))) = 1 ∧
    (2 : Nat) ≠ 1 :=
  ⟨by decide, by decide, by decide⟩

/-- C3, amended: for every list of articles, the paper_count of every key
in the graph returned by `build_coauthor_network` equals the number of
author-record occurrences (across all articles) resolving to that key; this
equals the number of distinct articles on which the key appears exactly
when no article has two authors resolving to the same key. -/
theorem C3_amended (articles : List Article) (k : String) :
    (build_coauthor_network articles).getPaperCount k =
      (articles.map (fun art =>
        (art.authors.filter (fun a => author_key a == k)).length)).sum := by
  unfold build_coauthor_network
  rw [build_paperCount]
  have h0 : Graph.emptyG.getPaperCount k = 0 := rfl
  rw [h0]
  omega

/-- C3, witness: the amended statement evaluated on the colliding article,
where the occurrence count is 2. -/
theorem C3_witness :
    (build_coauthor_network [collideArticle]).getPaperCount "Smith J" =
      (([collideArticle] : List Article).map (fun art =>
        (art.authors.filter (fun a => author_key a == "Smith J")).length)).sum :=
  C3_amended [collideArticle] "Smith J"

/-! ## Claim C4 -/

/-- C4, counterexample: one article with two distinct author records that
both resolve to key "Smith J" makes `combinations(author_keys, 2)` emit the
pair ("Smith J", "Smith J"), creating a self-loop edge of weight 1. -/
theorem C4_counterexample :
    ("Smith J", "Smith J", 1) ∈ collideG.edges ∧
    edgeWeight collideG "Smith J" "Smith J" = 1 :=
  ⟨by decide, by decide⟩

/-- C4, amended: provided every article's authors resolve to pairwise
distinct keys, the graph returned by `build_coauthor_network` contains no
self-loop edge, and for all distinct keys a ≠ b the stored weight of the
edge {a,b} equals the number of input articles on which both keys co-occur
(0 when no such article exists and the edge is absent). -/
theorem C4_amended (articles : List Article)
    (hdist : ∀ art ∈ articles, (art.authors.map author_key).Nodup) :
    (∀ e ∈ (build_coauthor_network articles).edges, e.1 ≠ e.2.1) ∧
    ∀ a b : String, a ≠ b →
      edgeWeight (build_coauthor_network articles) a b =
        articles.countP (fun art =>
          decide (a ∈ art.authors.map author_key) &&
          decide (b ∈ art.authors.map author_key)) := by
  constructor
  · exact build_no_loop articles Graph.emptyG hdist (by intro e he; cases he)
  · intro a b hab
    unfold build_coauthor_network
    rw [build_edgeWeight articles a b hab Graph.emptyG hdist]
    have h0 : edgeWeight Graph.emptyG a b = 0 := rfl
    rw [h0]
    omega

/-- C4, witness: the amended statement evaluated on the spec scenario at
the pair (A, B), whose co-occurrence count is 2. -/
theorem C4_witness :
    (∀ art ∈ scenarioArticles, (art.authors.map author_key).Nodup) ∧
    edgeWeight (build_coauthor_network scenarioArticles) "A" "B" =
      scenarioArticles.countP (fun art =>
        decide ("A" ∈ art.authors.map author_key) &&
        decide ("B" ∈ art.authors.map author_key)) :=
  ⟨by decide, (C4_amended scenarioArticles (by decide)).2 "A" "B" (by decide)⟩

/-- C2, counterexample: the claim asserts that on the three articles
(A,B), (B,C), (A,B,C) the edge B–C has weight 1; `build_coauthor_network`
gives it weight 2, because B and C co-occur on the second and the third
article. -/
theorem C2_counterexample :
    edgeWeight scenarioG "B" "C" = 2 ∧ edgeWeight scenarioG "B" "C" ≠ 1 :=
  ⟨by decide, by decide⟩

/-- C2, amended: on the three articles (A,B), (B,C), (A,B,C) the built
graph has nodes {A,B,C}, edge A–B of weight 2, edge B–C of weight 2
(not 1), edge A–C of weight 1, paper_count A=2, B=3, C=2, one connected
component of size 3, and density 1.0. -/
theorem C2_amended :
    scenarioG.nodeKeys = ["A", "B", "C"] ∧
    edgeWeight scenarioG "A" "B" = 2 ∧
    edgeWeight scenarioG "B" "C" = 2 ∧
    edgeWeight scenarioG "A" "C" = 1 ∧
    scenarioG.getPaperCount "A" = 2 ∧
    scenarioG.getPaperCount "B" = 3 ∧
    scenarioG.getPaperCount "C" = 2 ∧
    (get_network_stats scenarioG).connected_components = some 1 ∧
    (get_network_stats scenarioG).largest_component_size = some 3 ∧
    (get_network_stats scenarioG).density = some 1 := by
  refine ⟨by decide, by decide, by decide, by decide, by decide, by decide,
    by decide, by decide, by decide, ?_⟩
  have h1 : scenarioG.nodes.length = 3 := by decide
  have h2 : scenarioG.edges.length = 3 := by decide
  have hd : nxDensity scenarioG = 1 := by
    simp only [nxDensity, h1, h2]
    norm_num
  show some (round4 (nxDensity scenarioG)) = some 1
  rw [hd]
  norm_num [round4, roundHalfEven]

/-! ## Claim C6 -/

/-- C6, counterexample: on the empty graph `get_network_stats` returns the
dict `{"nodes": 0, "edges": 0}`; the density field is absent, not zero. -/
theorem C6_counterexample :
    (get_network_stats (build_coauthor_network [])).density = none ∧
    (none : Option ℚ) ≠ some 0 :=
  ⟨rfl, by decide⟩

/-- C6, amended: `build_coauthor_network []` yields the graph with 0 nodes
and 0 edges; on it `compute_centralities` returns the empty mapping without
error, and `get_network_stats` returns a record with node count 0 and edge
count 0 whose remaining four fields (density, component count, largest
component size, average clustering) are absent rather than zero. -/
theorem C6_amended (cbrt : ℚ → ℚ) :
    build_coauthor_network [] = Graph.emptyG ∧
    (build_coauthor_network []).nodes.length = 0 ∧
    (build_coauthor_network []).edges.length = 0 ∧
    compute_centralities cbrt (build_coauthor_network []) = [] ∧
    get_network_stats (build_coauthor_network []) =
      { nodes := 0, edges := 0, density := none, connected_components := none
        largest_component_size := none, avg_clustering := none } :=
  ⟨rfl, rfl, rfl, rfl, rfl⟩

/-- C6, witness: the amended statement instantiated at the identity in
place of the cube-root parameter. -/
theorem C6_witness :
    compute_centralities id (build_coauthor_network []) = [] :=
  (C6_amended id).2.2.2.1

end PubmedNetwork

